import Mathlib

/-!
Verification development for the sasquatch wiki MCP server.

Strings are modelled as `List Char` (JavaScript strings, restricted to
Unicode scalar values).  Each JavaScript regular-expression rewrite from
`wiki-parser.ts` is embedded as a left-to-right scanner: at every position
the scanner either recognises a match (consuming `n ≥ 1` characters and
emitting a replacement) or passes one character through, exactly like a
global `String.replace`.  The scanners are fuelled by the input length so
that every definition is structurally recursive and computable by `decide`.
-/

namespace Sasquatch

/-- ASCII whitespace recognised by the JavaScript `\s` class (the fragment
relevant to this code base). -/
def isWsChar (c : Char) : Bool :=
  c == ' ' || c == '\t' || c == '\n' || c == '\r' || c == Char.ofNat 11 || c == Char.ofNat 12

/-- JavaScript `\w`: ASCII letters, digits and underscore. -/
def isWordChar (c : Char) : Bool :=
  ('a' ≤ c && c ≤ 'z') || ('A' ≤ c && c ≤ 'Z') || ('0' ≤ c && c ≤ '9') || c == '_'

def isDigitChar (c : Char) : Bool := '0' ≤ c && c ≤ '9'

def isHexChar (c : Char) : Bool :=
  isDigitChar c || ('a' ≤ c && c ≤ 'f') || ('A' ≤ c && c ≤ 'F')

/-- ASCII lower-casing, as performed by `toLowerCase` on the ASCII range. -/
def lowerC (c : Char) : Char :=
  if 'A' ≤ c && c ≤ 'Z' then Char.ofNat (c.toNat + 32) else c

def lowerL (l : List Char) : List Char := l.map lowerC

/-- The apostrophe character (kept out of literals). -/
def apos : Char := Char.ofNat 39

/-- Does `l` start with `p` (exact characters)? -/
def startsWithL : List Char → List Char → Bool
  | _, [] => true
  | [], _ :: _ => false
  | c :: cs, p :: ps => c == p && startsWithL cs ps

/-- Does `l` start with `p`, ASCII-case-insensitively? -/
def ciStartsWithL : List Char → List Char → Bool
  | _, [] => true
  | [], _ :: _ => false
  | c :: cs, p :: ps => lowerC c == lowerC p && ciStartsWithL cs ps

/-- Length of the longest run of characters satisfying `p` at the head. -/
def countWhile (p : Char → Bool) : List Char → Nat
  | [] => 0
  | c :: cs => if p c then countWhile p cs + 1 else 0

/-- Does `pat` occur as a contiguous sub-sequence of `l`? -/
def hasSubL (pat : List Char) : List Char → Bool
  | [] => startsWithL [] pat
  | c :: cs => startsWithL (c :: cs) pat || hasSubL pat cs

/-- Index of the first (exact) occurrence of `pat` in `l`. -/
def findSubCS (pat : List Char) : List Char → Option Nat
  | [] => if startsWithL [] pat then some 0 else none
  | c :: cs =>
    if startsWithL (c :: cs) pat then some 0
    else (findSubCS pat cs).map (· + 1)

/-- Index of the first case-insensitive occurrence of `pat` in `l`. -/
def findSubCI (pat : List Char) : List Char → Option Nat
  | [] => if ciStartsWithL [] pat then some 0 else none
  | c :: cs =>
    if ciStartsWithL (c :: cs) pat then some 0
    else (findSubCI pat cs).map (· + 1)

/-- JavaScript `String.prototype.trim` (ASCII whitespace fragment). -/
def jsTrim (l : List Char) : List Char :=
  ((l.dropWhile isWsChar).reverse.dropWhile isWsChar).reverse

/-- JavaScript `split(sep)` for a single-character separator: keeps empty
fields, `split` of the empty string is `[""]`. -/
def splitOnCharL (sep : Char) (l : List Char) : List (List Char) :=
  l.foldr
    (fun c acc =>
      match acc with
      | [] => if c == sep then [[], []] else [[c]]
      | a :: rest => if c == sep then [] :: a :: rest else (c :: a) :: rest)
    [[]]

/-- Fields of `l` separated by runs of whitespace (leading/trailing runs
produce empty fields, as `split(/\s+/)` does before filtering). -/
def splitOnWsL (l : List Char) : List (List Char) :=
  l.foldr
    (fun c acc =>
      match acc with
      | [] => if isWsChar c then [[]] else [[c]]
      | a :: rest => if isWsChar c then [] :: a :: rest else (c :: a) :: rest)
    [[]]

/-- JavaScript `split(sep)` for a multi-character separator (fuelled). -/
def splitOnSubF (sep : List Char) : Nat → List Char → List (List Char)
  | _, [] => [[]]
  | 0, l => [l]
  | f + 1, c :: cs =>
    if sep ≠ [] && startsWithL (c :: cs) sep then
      [] :: splitOnSubF sep f (List.drop sep.length (c :: cs))
    else
      match splitOnSubF sep f cs with
      | [] => [[c]]
      | a :: rest => (c :: a) :: rest

def splitOnSubL (sep l : List Char) : List (List Char) := splitOnSubF sep l.length l

/-- `Array.prototype.join(sep)`. -/
def joinSep (sep : List Char) : List (List Char) → List Char
  | [] => []
  | [x] => x
  | x :: y :: rest => x ++ sep ++ joinSep sep (y :: rest)

/-- Greatest `j ≤ n` with `p j`, searching downward (backtracking order of a
greedy quantifier). -/
def descFind (p : Nat → Option α) : Nat → Option α
  | 0 => p 0
  | n + 1 =>
    match p (n + 1) with
    | some r => some r
    | none => descFind p n

/-- First `i` in `lo, lo+1, …` (at most `cnt` values) with `p i` (matching
order of a lazy quantifier). -/
def ascFind (p : Nat → Option α) : Nat → Nat → Option α
  | _, 0 => none
  | lo, cnt + 1 =>
    match p lo with
    | some r => some r
    | none => ascFind p (lo + 1) cnt

/-- One result of a scanner at the current position: the replacement text to
emit and the number of characters consumed (always positive for the scanners
in this file). -/
abbrev Hit := Option (List Char × Nat)

/-- Global regex replace, modelled as a left-to-right scan.  `tf` inspects
the current suffix; on `some (emit, n)` with `n > 0` the match is replaced
by `emit` and scanning resumes after the consumed characters, otherwise one
character is passed through.  Fuelled (structural) recursion; with fuel
`≥ length` the fuel never runs out. -/
def scanRepl (tf : List Char → Hit) : Nat → List Char → List Char
  | _, [] => []
  | 0, l => l
  | f + 1, c :: cs =>
    match tf (c :: cs) with
    | some (emit, n) =>
      if n = 0 then c :: scanRepl tf f cs
      else emit ++ scanRepl tf f (List.drop n (c :: cs))
    | none => c :: scanRepl tf f cs

/-- Is the character at offset `n - 1` of `l` a newline?  Used to decide
whether scanning resumes at a line start after consuming `n` characters. -/
def endsAtNl (l : List Char) (n : Nat) : Bool :=
  match l.drop (n - 1) with
  | '\n' :: _ => true
  | _ => false

/-- Global replace for a `^`-anchored pattern under the `m` flag: `tf` is
only consulted at positions that start a line (position 0 or immediately
after a newline in the original string). -/
def lineScan (tf : List Char → Hit) : Nat → Bool → List Char → List Char
  | _, _, [] => []
  | 0, _, l => l
  | f + 1, atStart, c :: cs =>
    if atStart then
      match tf (c :: cs) with
      | some (emit, n) =>
        if n = 0 then c :: lineScan tf f (c == '\n') cs
        else emit ++ lineScan tf f (endsAtNl (c :: cs) n) (List.drop n (c :: cs))
      | none => c :: lineScan tf f (c == '\n') cs
    else c :: lineScan tf f (c == '\n') cs

def runS (tf : List Char → Hit) (l : List Char) : List Char := scanRepl tf l.length l

def runL (tf : List Char → Hit) (l : List Char) : List Char := lineScan tf l.length true l

/-! ## The stages of `parseWikitext` -/

/-- `/<noinclude[\s\S]*?<\/noinclude>/gi` (lazy: earliest closing tag). -/
def tryNoinclude (l : List Char) : Hit :=
  if ciStartsWithL l ("<noinclude".data) then
    match findSubCI ("</noinclude>".data) (l.drop 10) with
    | some k => some ([], 10 + k + 12)
    | none => none
  else none

/-- `/<\/?includeonly>/gi`. -/
def tryIncludeonly (l : List Char) : Hit :=
  if ciStartsWithL l ("<includeonly>".data) then some ([], 13)
  else if ciStartsWithL l ("</includeonly>".data) then some ([], 14)
  else none

/-- `/<!--[\s\S]*?-->/g`. -/
def tryComment (l : List Char) : Hit :=
  if startsWithL l ("<!--".data) then
    match findSubCS ("-->".data) (l.drop 4) with
    | some k => some ([], 4 + k + 3)
    | none => none
  else none

/-- `/__(?:TOC|NOTOC|FORCETOC)__/g`. -/
def tryMagic (l : List Char) : Hit :=
  if startsWithL l ("__TOC__".data) then some ([], 7)
  else if startsWithL l ("__NOTOC__".data) then some ([], 9)
  else if startsWithL l ("__FORCETOC__".data) then some ([], 12)
  else none

/-- `/\{\{DISPLAYTITLE:[^}]*\}\}/gi`: after the head literal, `[^}]*` stops
at the first `}`, which must be followed by a second `}`. -/
def tryDisplayTitle (l : List Char) : Hit :=
  if ciStartsWithL l ("\x7b\x7bDISPLAYTITLE:".data) then
    let r := l.drop 15
    let m := countWhile (fun c => !(c == '\x7d')) r
    if startsWithL (r.drop m) ("\x7d\x7d".data) then some ([], 15 + m + 2) else none
  else none

/-- `/\[\[(?:File|Image):[^\]]*\]\]/gi`. -/
def tryFileImage (l : List Char) : Hit :=
  if startsWithL l ("[[".data) then
    let r := l.drop 2
    let k : Option Nat :=
      if ciStartsWithL r ("File:".data) then some 5
      else if ciStartsWithL r ("Image:".data) then some 6
      else none
    match k with
    | some k =>
      let r2 := r.drop k
      let m := countWhile (fun c => !(c == ']')) r2
      if startsWithL (r2.drop m) ("]]".data) then some ([], 2 + k + m + 2) else none
    | none => none
  else none

/-- `/\[\[Category:[^\]]*\]\]/gi`. -/
def tryCategory (l : List Char) : Hit :=
  if startsWithL l ("[[".data) then
    let r := l.drop 2
    if ciStartsWithL r ("Category:".data) then
      let r2 := r.drop 9
      let m := countWhile (fun c => !(c == ']')) r2
      if startsWithL (r2.drop m) ("]]".data) then some ([], 2 + 9 + m + 2) else none
    else none
  else none

/-- Keys dropped from infobox templates (exact case-insensitive match). -/
def denyKey (k : List Char) : Bool :=
  let kl := lowerL k
  kl == "image".data || kl == "icon".data || kl == "caption".data ||
  kl == "imagewidth".data || kl == "imageheight".data || kl == "style".data ||
  kl == "class".data || kl == "colspan".data || kl == "rowspan".data

/-- `param.match(/^\s*(\w[\w\s]*?)\s*=\s*(.+?)\s*$/s)` followed by the key
filter and the emptiness checks of `extractInfoboxText`: leading whitespace
is skipped, a word character must follow, the key extends over word/space
characters up to the first `=`, and the (trimmed) value must be non-empty. -/
def infoboxPair (param : List Char) : Option (List Char) :=
  let r := param.dropWhile isWsChar
  match r with
  | [] => none
  | c :: _ =>
    if isWordChar c then
      let krun := countWhile (fun d => isWordChar d || isWsChar d) r
      match r.drop krun with
      | '=' :: rest =>
        if rest = [] then none
        else
          let key := jsTrim (r.take krun)
          let value := jsTrim rest
          if denyKey key then none
          else if value = [] then none
          else some (key ++ (": ".data) ++ value)
      | _ => none
    else none

/-- `extractInfoboxText`. -/
def extractInfoboxText (params : List (List Char)) : List Char :=
  let lines := params.filterMap infoboxPair
  if lines = [] then [] else joinSep ('\n' :: []) lines ++ ('\n' :: [])

/-- `extractTemplateText`. -/
def extractTemplateText (content : List Char) : List Char :=
  let parts := splitOnCharL '|' content
  let name := lowerL (jsTrim (parts.headD []))
  if startsWithL name ("infobox".data) then extractInfoboxText (parts.drop 1)
  else if name == "quote".data || name == "cquote".data then
    match parts.drop 1 with
    | [] => []
    | p1 :: _ => if p1 = [] then [] else '"' :: jsTrim p1 ++ ['"']
  else if name == "color".data && decide (3 ≤ parts.length) then
    jsTrim (parts.getD 2 [])
  else if name == "main".data || name == "see also".data then
    match parts.drop 1 with
    | [] => []
    | p1 :: _ => if p1 = [] then [] else "(See: ".data ++ jsTrim p1 ++ [')']
  else if name == "nihongo".data then
    match parts.drop 1 with
    | [] => []
    | p1 :: _ => if p1 = [] then [] else jsTrim p1
  else []

/-- `/\{\{([^{}]*)\}\}/g`: an innermost template region; the brace-free
content must be closed by `}}` immediately after its first brace. -/
def tryTemplate (l : List Char) : Hit :=
  if startsWithL l ("\x7b\x7b".data) then
    let r := l.drop 2
    let m := countWhile (fun c => !(c == '\x7b' || c == '\x7d')) r
    if startsWithL (r.drop m) ("\x7d\x7d".data) then
      some (extractTemplateText (r.take m), 2 + m + 2)
    else none
  else none

/-- One full replacement pass of `processTemplates`. -/
def tmplPass (l : List Char) : List Char := runS tryTemplate l

/-- The `while (text !== previous && iterations < maxIterations)` loop. -/
def ptGo : Nat → List Char → List Char → List Char
  | 0, _, text => text
  | f + 1, prev, text => if text == prev then text else ptGo f text (tmplPass text)

/-- `processTemplates` with its 50-pass safety limit. -/
def processTemplates (text : List Char) : List Char := ptGo 50 [] text

/-- `/^\{\|[^\n]*$/gm` → `""`. -/
def tryTableStart (l : List Char) : Hit :=
  if startsWithL l ("\x7b|".data) then
    some ([], 2 + countWhile (fun c => !(c == '\n')) (l.drop 2))
  else none

/-- `/^\|\}$/gm` → `""` (the `$` is a zero-width check). -/
def tryTableEnd (l : List Char) : Hit :=
  if startsWithL l ("|\x7d".data) then
    match l.drop 2 with
    | [] => some ([], 2)
    | '\n' :: _ => some ([], 2)
    | _ => none
  else none

/-- `/^\|\+\s*(.*)/gm` → `$1` (`\s*` may cross newlines; `.` may not). -/
def tryCaption (l : List Char) : Hit :=
  if startsWithL l ("|+".data) then
    let r := l.drop 2
    let w := countWhile isWsChar r
    let r2 := r.drop w
    let m := countWhile (fun c => !(c == '\n')) r2
    some (r2.take m, 2 + w + m)
  else none

/-- `/^\|-[^\n]*/gm` → `""`. -/
def tryRowSep (l : List Char) : Hit :=
  if startsWithL l ("|-".data) then
    some ([], 2 + countWhile (fun c => !(c == '\n')) (l.drop 2))
  else none

/-- `/^!\s*(.*)/gm` → `$1`. -/
def tryHeaderCell (l : List Char) : Hit :=
  match l with
  | '!' :: r =>
    let w := countWhile isWsChar r
    let r2 := r.drop w
    let m := countWhile (fun c => !(c == '\n')) r2
    some (r2.take m, 1 + w + m)
  | _ => none

/-- The replacement callback of the body-cell rule: split on `||`, trim,
drop empties, re-join with `" | "`. -/
def cellsJoin (s : List Char) : List Char :=
  joinSep (" | ".data) (((splitOnSubL ("||".data) s).map jsTrim).filter (fun x => x ≠ []))

/-- `/^\|\s*(.*)/gm` with the cell-splitting callback. -/
def tryCell (l : List Char) : Hit :=
  match l with
  | '|' :: r =>
    let w := countWhile isWsChar r
    let r2 := r.drop w
    let m := countWhile (fun c => !(c == '\n')) r2
    some (cellsJoin (r2.take m), 1 + w + m)
  | _ => none

/-- `processTables`: six sequential global passes. -/
def processTables (t : List Char) : List Char :=
  runL tryCell (runL tryHeaderCell (runL tryRowSep (runL tryCaption
    (runL tryTableEnd (runL tryTableStart t)))))

/-- `/\[\[([^\]|]+)\|([^\]]+)\]\]/g` → `$2`. -/
def tryPipedLink (l : List Char) : Hit :=
  if startsWithL l ("[[".data) then
    let r := l.drop 2
    let a := countWhile (fun c => !(c == ']' || c == '|')) r
    if a = 0 then none
    else
      match r.drop a with
      | '|' :: r2 =>
        let b := countWhile (fun c => !(c == ']')) r2
        if b = 0 then none
        else if startsWithL (r2.drop b) ("]]".data) then
          some (r2.take b, 2 + a + 1 + b + 2)
        else none
      | _ => none
  else none

/-- `/\[\[([^\]]+)\]\]/g` → `$1`. -/
def tryLink (l : List Char) : Hit :=
  if startsWithL l ("[[".data) then
    let r := l.drop 2
    let a := countWhile (fun c => !(c == ']')) r
    if a = 0 then none
    else if startsWithL (r.drop a) ("]]".data) then some (r.take a, 2 + a + 2)
    else none
  else none

/-- The literal `https?:\/\/` fragment. -/
def matchScheme (r : List Char) : Option Nat :=
  if startsWithL r ("https://".data) then some 8
  else if startsWithL r ("http://".data) then some 7
  else none

/-- `/\[https?:\/\/[^\s\]]+ ([^\]]+)\]/g` → `$1`. -/
def tryExtLabeled (l : List Char) : Hit :=
  match l with
  | '[' :: r =>
    match matchScheme r with
    | some k =>
      let r2 := r.drop k
      let u := countWhile (fun c => !(isWsChar c || c == ']')) r2
      if u = 0 then none
      else
        match r2.drop u with
        | ' ' :: r3 =>
          let t := countWhile (fun c => !(c == ']')) r3
          if t = 0 then none
          else
            match r3.drop t with
            | ']' :: _ => some (r3.take t, 1 + k + u + 1 + t + 1)
            | _ => none
        | _ => none
    | none => none
  | _ => none

/-- `/\[https?:\/\/([^\]]+)\]/g` → `$1`. -/
def tryExtBare (l : List Char) : Hit :=
  match l with
  | '[' :: r =>
    match matchScheme r with
    | some k =>
      let r2 := r.drop k
      let g := countWhile (fun c => !(c == ']')) r2
      if g = 0 then none
      else
        match r2.drop g with
        | ']' :: _ => some (r2.take g, 1 + k + g + 1)
        | _ => none
    | none => none
  | _ => none

/-- Zero-width `$` under the `m` flag: end of input or before a newline. -/
def atLineEnd (l : List Char) : Bool :=
  match l with
  | [] => true
  | '\n' :: _ => true
  | _ => false

/-- `/^={1,6}\s*(.+?)\s*={1,6}\s*$/gm` → `"\n$1\n"`, with the exact
backtracking priorities of the JavaScript engine: greedy `={1,6}` and `\s*`
(which may cross newlines), lazy `(.+?)` (which may not). -/
def tryHeaderLine (l : List Char) : Hit :=
  let e1 := countWhile (fun c => c == '=') l
  if e1 = 0 then none
  else
    descFind (fun k1 =>
      if k1 = 0 || !(k1 ≤ 6) then none
      else
        let r1 := l.drop k1
        descFind (fun j1 =>
          let r2 := r1.drop j1
          let lineMax := countWhile (fun c => !(c == '\n')) r2
          ascFind (fun i =>
            let r3 := r2.drop i
            descFind (fun j2 =>
              let r4 := r3.drop j2
              let e2 := countWhile (fun c => c == '=') r4
              descFind (fun k2 =>
                if k2 = 0 || !(k2 ≤ 6) then none
                else
                  let r5 := r4.drop k2
                  descFind (fun j3 =>
                    if atLineEnd (r5.drop j3) then
                      some ('\n' :: r2.take i ++ ['\n'], k1 + j1 + i + j2 + k2 + j3)
                    else none)
                    (countWhile isWsChar r5))
                (min e2 6))
              (countWhile isWsChar r3))
            1 lineMax)
          (countWhile isWsChar r1))
      (min e1 6)

/-- `/'{q}(.+?)'{q}/g` → `$1` for `q = 5, 3, 2`. -/
def tryEmph (q : Nat) (l : List Char) : Hit :=
  if startsWithL l (List.replicate q apos) then
    let r := l.drop q
    let lineMax := countWhile (fun c => !(c == '\n')) r
    match ascFind (fun i =>
        if startsWithL (r.drop i) (List.replicate q apos) then some i else none)
      1 lineMax with
    | some i => some (r.take i, q + i + q)
    | none => none
  else none

/-- `/<br\s*\/?>/gi` → `"\n"`. -/
def tryBr (l : List Char) : Hit :=
  if ciStartsWithL l ("<br".data) then
    let r := l.drop 3
    let w := countWhile isWsChar r
    match r.drop w with
    | '>' :: _ => some (['\n'], 3 + w + 1)
    | '/' :: '>' :: _ => some (['\n'], 3 + w + 2)
    | _ => none
  else none

/-- `/<\/?[^>]+>/g` → `""` (the optional `/` is subsumed by `[^>]+`). -/
def tryTag (l : List Char) : Hit :=
  match l with
  | '<' :: r =>
    let b := countWhile (fun c => !(c == '>')) r
    if b = 0 then none
    else
      match r.drop b with
      | '>' :: _ => some ([], 1 + b + 1)
      | _ => none
  | _ => none

/-- `/^\*+\s*/gm` → `"- "`. -/
def tryStars (l : List Char) : Hit :=
  let d := countWhile (fun c => c == '*') l
  if d = 0 then none else some ("- ".data, d + countWhile isWsChar (l.drop d))

/-- `/^#+\s*/gm` → `"- "`. -/
def tryHashes (l : List Char) : Hit :=
  let d := countWhile (fun c => c == '#') l
  if d = 0 then none else some ("- ".data, d + countWhile isWsChar (l.drop d))

/-- `/^;+\s*/gm` → `""`. -/
def trySemis (l : List Char) : Hit :=
  let d := countWhile (fun c => c == ';') l
  if d = 0 then none else some ([], d + countWhile isWsChar (l.drop d))

/-- `/^:+\s*/gm` → `"  "`. -/
def tryColons (l : List Char) : Hit :=
  let d := countWhile (fun c => c == ':') l
  if d = 0 then none else some ("  ".data, d + countWhile isWsChar (l.drop d))

/-- `/^-{4,}\s*$/gm` → `""` (greedy `\s*` backtracking to satisfy `$`). -/
def tryHr (l : List Char) : Hit :=
  let d := countWhile (fun c => c == '-') l
  if 4 ≤ d then
    let r := l.drop d
    descFind (fun j => if atLineEnd (r.drop j) then some (([] : List Char), d + j) else none)
      (countWhile isWsChar r)
  else none

/-- A case-insensitive literal replacement (one entry of the entity map). -/
def tryLit (pat rep : List Char) (l : List Char) : Hit :=
  if ciStartsWithL l pat then some (rep, pat.length) else none

def decVal (ds : List Char) : Nat := ds.foldl (fun n c => n * 10 + (c.toNat - 48)) 0

def hexDigitVal (c : Char) : Nat :=
  if isDigitChar c then c.toNat - 48
  else if 'a' ≤ c && c ≤ 'f' then c.toNat - 87
  else c.toNat - 55

def hexVal (ds : List Char) : Nat := ds.foldl (fun n c => n * 16 + hexDigitVal c) 0

/-- `String.fromCharCode` truncates to a UTF-16 code unit; values that are
not Unicode scalars fall back to `Char.ofNat`'s default. -/
def charOfCode (n : Nat) : Char := Char.ofNat (n % 65536)

/-- `/&#(\d+);/g`. -/
def tryDecEnt (l : List Char) : Hit :=
  if startsWithL l ("&#".data) then
    let r := l.drop 2
    let d := countWhile isDigitChar r
    if d = 0 then none
    else
      match r.drop d with
      | ';' :: _ => some ([charOfCode (decVal (r.take d))], 2 + d + 1)
      | _ => none
  else none

/-- `/&#x([0-9a-f]+);/gi`. -/
def tryHexEnt (l : List Char) : Hit :=
  if ciStartsWithL l ("&#x".data) then
    let r := l.drop 3
    let d := countWhile isHexChar r
    if d = 0 then none
    else
      match r.drop d with
      | ';' :: _ => some ([charOfCode (hexVal (r.take d) % 65536)], 3 + d + 1)
      | _ => none
  else none

/-- The named-entity table, in the insertion order of `decodeHtmlEntities`. -/
def entityTable : List (List Char × List Char) :=
  [("&amp;".data, "&".data), ("&lt;".data, "<".data), ("&gt;".data, ">".data),
   ("&quot;".data, "\"".data), ("&apos;".data, [apos]), ("&#39;".data, [apos]),
   ("&nbsp;".data, " ".data), ("&ndash;".data, "–".data), ("&mdash;".data, "—".data),
   ("&hellip;".data, "...".data), ("&bull;".data, "•".data), ("&trade;".data, "™".data),
   ("&copy;".data, "©".data), ("&reg;".data, "®".data)]

/-- `decodeHtmlEntities`: one global pass per named entity, then the decimal
and hexadecimal numeric-entity passes. -/
def decodeHtmlEntities (t : List Char) : List Char :=
  let t := entityTable.foldl (fun acc pr => runS (tryLit pr.1 pr.2) acc) t
  let t := runS tryDecEnt t
  runS tryHexEnt t

/-- `/[ \t]+/g` → `" "`. -/
def tryHWs (l : List Char) : Hit :=
  match l with
  | c :: _ =>
    if c == ' ' || c == '\t' then
      some ([' '], countWhile (fun d => d == ' ' || d == '\t') l)
    else none
  | [] => none

/-- `/\n{3,}/g` → `"\n\n"`. -/
def tryNl3 (l : List Char) : Hit :=
  let d := countWhile (fun c => c == '\n') l
  if 3 ≤ d then some (['\n', '\n'], d) else none

/-- `parseWikitext`, stage for stage in source order. -/
def parseWikitext (raw : List Char) : List Char :=
  let t := runS tryNoinclude raw
  let t := runS tryIncludeonly t
  let t := runS tryComment t
  let t := runS tryMagic t
  let t := runS tryDisplayTitle t
  let t := runS tryFileImage t
  let t := runS tryCategory t
  let t := processTemplates t
  let t := processTables t
  let t := runS tryPipedLink t
  let t := runS tryLink t
  let t := runS tryExtLabeled t
  let t := runS tryExtBare t
  let t := runL tryHeaderLine t
  let t := runS (tryEmph 5) t
  let t := runS (tryEmph 3) t
  let t := runS (tryEmph 2) t
  let t := runS tryBr t
  let t := runS tryTag t
  let t := runL tryStars t
  let t := runL tryHashes t
  let t := runL trySemis t
  let t := runL tryColons t
  let t := runL tryHr t
  let t := decodeHtmlEntities t
  let t := runS tryHWs t
  let t := runS tryNl3 t
  jsTrim t

/-! ## The database (`database.ts`)

SQLite semantics are embedded at the level the source uses them:

* the `pages` table is a list of rows; `title TEXT UNIQUE` uses the default
  BINARY collation, so `ON CONFLICT(title)` fires on exact title equality;
* `id INTEGER PRIMARY KEY AUTOINCREMENT` is a monotone counter;
* the external-content FTS5 table is represented by the `(rowid, title,
  content)` triples its triggers maintain (`pages_ai`/`pages_ad`/`pages_au`);
* `LIKE` (no `ESCAPE`) with a pattern whose interior has no wildcards is
  ASCII-case-insensitive containment, SQLite's documented default;
* better-sqlite3's `db.transaction` rolls the whole batch back when the
  wrapped function throws;
* columns declared `NOT NULL` reject a null binding, which is the failure
  mode `upsertPages` can hit at run time (`PageData` fields are nullable in
  the dynamic language). -/

structure PageData where
  title : Option (List Char)
  content : Option (List Char)
  url : Option (List Char)
  categories : List (List Char)
  last_modified : Option (List Char)
deriving DecidableEq

structure PageRow where
  id : Nat
  title : List Char
  content : List Char
  url : List Char
  /-- the serialized JSON array stored in the `categories` column -/
  categories : List Char
  last_modified : Option (List Char)
  scraped_at : List Char
deriving DecidableEq

structure WikiDb where
  pages : List PageRow
  fts : List (Nat × List Char × List Char)
  cats : List (List Char × Nat)
  nextId : Nat
deriving DecidableEq

def emptyDb : WikiDb := ⟨[], [], [], 1⟩

def hexDigit (n : Nat) : Char :=
  if n < 10 then Char.ofNat (48 + n) else Char.ofNat (87 + n)

/-- `JSON.stringify` escaping of one character inside a string literal. -/
def escJsonChar (c : Char) : List Char :=
  if c == '"' then ['\\', '"']
  else if c == '\\' then ['\\', '\\']
  else if c == '\n' then ['\\', 'n']
  else if c == '\r' then ['\\', 'r']
  else if c == '\t' then ['\\', 't']
  else if c == Char.ofNat 8 then ['\\', 'b']
  else if c == Char.ofNat 12 then ['\\', 'f']
  else if c.toNat < 32 then
    ['\\', 'u', '0', '0', hexDigit (c.toNat / 16), hexDigit (c.toNat % 16)]
  else [c]

def quoteJson (s : List Char) : List Char :=
  '"' :: (s.map escJsonChar).flatten ++ ['"']

/-- `JSON.stringify(page.categories)`. -/
def serializeCats (cs : List (List Char)) : List Char :=
  '[' :: joinSep [','] (cs.map quoteJson) ++ [']']

/-- The `DO UPDATE SET` part of the upsert statement applied to a row. -/
def updRow (p : PageData) (now c u : List Char) (q : PageRow) : PageRow :=
  { q with content := c, url := u, categories := serializeCats p.categories,
           last_modified := p.last_modified, scraped_at := now }

/-- The freshly inserted row of the upsert statement. -/
def newRow (db : WikiDb) (p : PageData) (t c u now : List Char) : PageRow :=
  { id := db.nextId, title := t, content := c, url := u,
    categories := serializeCats p.categories,
    last_modified := p.last_modified, scraped_at := now }

/-- `INSERT … ON CONFLICT(title) DO UPDATE …` plus the FTS triggers.
Fails when a `NOT NULL` column would receive a null binding. -/
def upsertPageE (db : WikiDb) (p : PageData) (now : List Char) :
    Except (List Char) WikiDb :=
  match p.title, p.content, p.url with
  | some t, some c, some u =>
    match db.pages.find? (fun r => r.title == t) with
    | some r =>
      Except.ok
        { db with
          pages := db.pages.map (fun q => if q.title == t then updRow p now c u q else q)
          fts := db.fts.filter (fun e => !(e.1 == r.id)) ++ [(r.id, r.title, c)] }
    | none =>
      Except.ok
        { db with
          pages := db.pages ++ [newRow db p t c u now]
          fts := db.fts ++ [(db.nextId, t, c)]
          nextId := db.nextId + 1 }
  | _, _, _ => Except.error ("NOT NULL constraint failed".data)

/-- A single `upsertPage` call: an exception propagates and the statement's
effects are not applied. -/
def applyUpsert (db : WikiDb) (p : PageData) (now : List Char) : WikiDb :=
  match upsertPageE db p now with
  | Except.ok d => d
  | Except.error _ => db

/-- The loop inside the `db.transaction` wrapper of `upsertPages`. -/
def runBatch : WikiDb → List PageData → List Char → Except (List Char) WikiDb
  | db, [], _ => Except.ok db
  | db, p :: ps, now =>
    match upsertPageE db p now with
    | Except.ok d => runBatch d ps now
    | Except.error e => Except.error e

/-- `upsertPages`: the transaction commits all writes or rolls every one of
them back, re-raising the error to the caller (second component). -/
def upsertPages (db : WikiDb) (ps : List PageData) (now : List Char) :
    WikiDb × Option (List Char) :=
  match runBatch db ps now with
  | Except.ok d => (d, none)
  | Except.error e => (db, some e)

/-- `SELECT COUNT(*) FROM pages`. -/
def getPageCount (db : WikiDb) : Nat := db.pages.length

/-- BINARY (code-point, equivalently UTF-8 byte) order used by `ORDER BY`
on a TEXT column. -/
def lexLeB : List Char → List Char → Bool
  | [], _ => true
  | _ :: _, [] => false
  | a :: as, b :: bs =>
    if a.toNat < b.toNat then true
    else if b.toNat < a.toNat then false
    else lexLeB as bs

def titleLe (a b : List Char) : Prop := lexLeB a b = true

instance : DecidableRel titleLe := fun a b => decEq (lexLeB a b) true

/-- `category.replace(/["%_\\]/g, "")`. -/
def stripSpecial (s : List Char) : List Char :=
  s.filter (fun c => !(c == '"' || c == '%' || c == '_' || c == '\\'))

/-- `LIKE '%' || pat || '%'` where `pat` contains no wildcard characters:
ASCII-case-insensitive containment. -/
def likeContains (text pat : List Char) : Bool :=
  hasSubL (lowerL pat) (lowerL text)

/-- `getPagesByCategory`. -/
def getPagesByCategory (db : WikiDb) (category : List Char) : List (List Char) :=
  let pat := '"' :: stripSpecial category ++ ['"']
  let rows := db.pages.filter (fun r => likeContains r.categories pat)
  (rows.map (fun r => r.title)).insertionSort titleLe

/-- JSON whitespace. -/
def isJWs (c : Char) : Bool := c == ' ' || c == '\t' || c == '\n' || c == '\r'

/-- Body of a JSON string literal (after the opening quote); returns the
decoded characters and the remainder after the closing quote. -/
def pStr : Nat → List Char → Option (List Char × List Char)
  | 0, _ => none
  | _, [] => none
  | f + 1, c :: r =>
    if c == '"' then some ([], r)
    else if c == '\\' then
      match r with
      | [] => none
      | e :: r2 =>
        if e == '"' || e == '\\' || e == '/' then
          (pStr f r2).map (fun pr => (e :: pr.1, pr.2))
        else if e == 'n' then (pStr f r2).map (fun pr => ('\n' :: pr.1, pr.2))
        else if e == 't' then (pStr f r2).map (fun pr => ('\t' :: pr.1, pr.2))
        else if e == 'r' then (pStr f r2).map (fun pr => ('\r' :: pr.1, pr.2))
        else if e == 'b' then (pStr f r2).map (fun pr => (Char.ofNat 8 :: pr.1, pr.2))
        else if e == 'f' then (pStr f r2).map (fun pr => (Char.ofNat 12 :: pr.1, pr.2))
        else if e == 'u' then
          match r2 with
          | h1 :: h2 :: h3 :: h4 :: r3 =>
            if isHexChar h1 && isHexChar h2 && isHexChar h3 && isHexChar h4 then
              (pStr f r3).map (fun pr => (charOfCode (hexVal [h1, h2, h3, h4]) :: pr.1, pr.2))
            else none
          | _ => none
        else none
    else if c.toNat < 32 then none
    else (pStr f r).map (fun pr => (c :: pr.1, pr.2))

/-- Elements of a JSON array of strings, after the opening `[` (not
immediately closed). -/
def pList : Nat → List Char → Option (List (List Char) × List Char)
  | 0, _ => none
  | f + 1, l =>
    match l.dropWhile isJWs with
    | '"' :: r =>
      match pStr f r with
      | some (s, rest) =>
        match rest.dropWhile isJWs with
        | ',' :: r2 => (pList f r2).map (fun pr => (s :: pr.1, pr.2))
        | ']' :: r2 => some ([s], r2)
        | _ => none
      | none => none
    | _ => none

/-- `JSON.parse` restricted to arrays of strings; any other input counts as
a parse failure (`refreshCategories` skips it). -/
def parseCats (s : List Char) : Option (List (List Char)) :=
  match s.dropWhile isJWs with
  | '[' :: r =>
    match r.dropWhile isJWs with
    | ']' :: r2 => if r2.dropWhile isJWs = [] then some [] else none
    | _ =>
      match pList s.length r with
      | some (xs, rem) => if rem.dropWhile isJWs = [] then some xs else none
      | none => none
  | _ => none

/-- `counts.set(cat, (counts.get(cat) || 0) + 1)`: JavaScript `Map`s keep
first-insertion order. -/
def bumpCat : List (List Char × Nat) → List Char → List (List Char × Nat)
  | [], k => [(k, 1)]
  | (n, c) :: rest, k =>
    if n == k then (n, c + 1) :: rest else (n, c) :: bumpCat rest k

/-- The aggregation loop of `refreshCategories` (malformed JSON skipped). -/
def countsOf (pages : List PageRow) : List (List Char × Nat) :=
  pages.foldl
    (fun m r =>
      let src := if r.categories = [] then ("[]".data) else r.categories
      match parseCats src with
      | some cs => cs.foldl bumpCat m
      | none => m)
    []

/-- `refreshCategories`: `DELETE FROM categories` then re-insert the counts. -/
def refreshCategories (db : WikiDb) : WikiDb := { db with cats := countsOf db.pages }

def catLe (a b : List Char × Nat) : Prop := lexLeB a.1 b.1 = true

instance : DecidableRel catLe := fun a b => decEq (lexLeB a.1 b.1) true

/-- `SELECT name, page_count FROM categories WHERE page_count > 0 ORDER BY name`. -/
def getCategories (db : WikiDb) : List (List Char × Nat) :=
  (db.cats.filter (fun e => decide (0 < e.2))).insertionSort catLe

/-- `sanitizeFtsQuery`: strip disallowed characters, split on whitespace,
drop empty tokens. -/
def sanitizeTokens (q : List Char) : List (List Char) :=
  let cleaned := q.map (fun c => if isWordChar c || isWsChar c || c == '-' then c else ' ')
  (splitOnWsL cleaned).filter (fun t => t ≠ [])

def sanitizeFtsQuery (q : List Char) : List Char :=
  let tokens := sanitizeTokens q
  if tokens = [] then []
  else
    ("\x7btitle content\x7d : ".data) ++
      joinSep [' '] (tokens.map (fun t => '"' :: t ++ ['"']))

/-- A row produced by the search statement. -/
structure SearchRow where
  title : List Char
  snippet : List Char
  url : List Char
  relevance : Int
deriving DecidableEq

/-- `searchPages`.  The prepared FTS5 `MATCH` statement (tokenisation,
BM25 ranking, snippeting, rounding) is abstracted as `engine`; the source's
guard returns before that statement is ever consulted when the sanitized
query is empty. -/
def searchPages (engine : WikiDb → List Char → Nat → List SearchRow)
    (db : WikiDb) (query : List Char) (limit : Nat) : List SearchRow :=
  let ftsQuery := sanitizeFtsQuery query
  if ftsQuery = [] then [] else engine db ftsQuery limit

/-- The store operations whose write path the index-sync invariant ranges
over. -/
inductive DbOp
  | single (p : PageData) (now : List Char)
  | batch (ps : List PageData) (now : List Char)
  | refresh
deriving DecidableEq

def applyOp (db : WikiDb) : DbOp → WikiDb
  | DbOp.single p now => applyUpsert db p now
  | DbOp.batch ps now => (upsertPages db ps now).1
  | DbOp.refresh => refreshCategories db

def applyOps (db : WikiDb) (ops : List DbOp) : WikiDb := ops.foldl applyOp db

/-- What the FTS triggers index for one row. -/
def projFts (r : PageRow) : Nat × List Char × List Char := (r.id, r.title, r.content)

/-- The text index holds exactly the rows of the document table. -/
def FtsSynced (db : WikiDb) : Prop := db.fts.Perm (db.pages.map projFts)

/-- Structural invariants of a database reachable through the store's API:
unique row ids below the autoincrement counter, unique titles, and a
synchronized text index. -/
def DbInv (db : WikiDb) : Prop :=
  (db.pages.map PageRow.id).Nodup ∧ (db.pages.map PageRow.title).Nodup ∧
    (∀ r ∈ db.pages, r.id < db.nextId) ∧ FtsSynced db

instance : DecidablePred DbInv := fun db => by unfold DbInv FtsSynced; infer_instance

/-! ## Definitions used by the theorem statements -/

/-- `n`-fold application of the template-replacement pass. -/
def passIter : Nat → List Char → List Char
  | 0, s => s
  | n + 1, s => passIter n (tmplPass s)

/-- The characters from which the template/link delimiters are built, plus
the entity lead-in that can decode into them. -/
def delimSet : List Char := ['\x7b', '\x7d', '[', ']', '&']

/-- Characters any replacement text of the rewrite stages may introduce on
inputs free of `delimSet` characters. -/
def stageExtra : List Char := ['\n', ' ', '-', '|', '"', '(', ')', 'S', 'e', ':']

/-- Markup-trigger characters: a string avoiding all of them is inert for
every rewrite stage of `parseWikitext`. -/
def markupSet : List Char :=
  ['<', '\x7b', '\x7d', '[', ']', '_', '|', '!', '=', apos, '*', '#', ';', ':',
   '&', '-', '\t', '\r', Char.ofNat 11, Char.ofNat 12]

/-- Text every rewrite stage leaves untouched: no markup-trigger
characters, no tab or double space, at most two consecutive line breaks. -/
def InertText (l : List Char) : Prop :=
  (∀ c ∈ l, c ∉ markupSet) ∧
    hasSubL ("  ".data) l = false ∧
    hasSubL ("\n\n\n".data) l = false

/-- Clean plain text: inert and trimmed. -/
def CleanText (l : List Char) : Prop :=
  InertText l ∧
    (l.head?.all fun c => !isWsChar c) = true ∧
    (l.getLast?.all fun c => !isWsChar c) = true

instance : DecidablePred InertText := fun l => by unfold InertText; infer_instance

instance : DecidablePred CleanText := fun l => by unfold CleanText; infer_instance

/-- A `PageData` whose `NOT NULL` columns are all bound. -/
def ValidPage (p : PageData) : Prop :=
  p.title.isSome ∧ p.content.isSome ∧ p.url.isSome

instance : DecidablePred ValidPage := fun p => by unfold ValidPage; infer_instance

/-- The rows of `db` whose title is exactly `t`. -/
def rowsWithTitle (db : WikiDb) (t : List Char) : List PageRow :=
  db.pages.filter (fun r => r.title == t)

/-- A stored category name the JSON serializer copies verbatim: no quote,
no backslash, no control characters. -/
def PlainName (s : List Char) : Prop :=
  ∀ c ∈ s, c ≠ '"' ∧ c ≠ '\\' ∧ 32 ≤ c.toNat

instance : DecidablePred PlainName := fun s => by unfold PlainName; infer_instance

/-- Every row's `categories` column is the serialization of a list of plain
names (as produced by every write of the store's API). -/
def StoredPlain (db : WikiDb) : Prop :=
  ∀ r ∈ db.pages, ∃ cs, r.categories = serializeCats cs ∧ ∀ s ∈ cs, PlainName s

/-- `pat` occurs contiguously in `l`. -/
def occursIn (pat l : List Char) : Prop := ∃ a b, l = a ++ pat ++ b

/-- The serialized category array without its opening bracket: quoted
elements joined by commas, closed by `]`. -/
def serTail (es : List (List Char)) : List Char :=
  joinSep [','] (es.map (fun e => '"' :: e ++ ['"'])) ++ [']']

/-! # Theorems -/

/-! ## Basic character and list facts -/

theorem charToNat_ofNat {n : Nat} (h : n.isValidChar) : (Char.ofNat n).toNat = n := by
  unfold Char.ofNat
  rw [dif_pos h]
  unfold Char.ofNatAux Char.toNat
  simp only [UInt32.toNat]
  simp [BitVec.toNat_ofNatLt]

theorem charEq_of_toNat {a b : Char} (h : a.toNat = b.toNat) : a = b :=
  Char.eq_of_val_eq (UInt32.ext h)

theorem charLe_iff {a b : Char} : a ≤ b ↔ a.toNat ≤ b.toNat := Iff.rfl

theorem toNat_lowerC_of_upper {c : Char} (h : ('A' ≤ c && c ≤ 'Z') = true) :
    (lowerC c).toNat = c.toNat + 32 := by
  have h2 := (Bool.and_eq_true _ _).mp h
  have h3 : 65 ≤ c.toNat := charLe_iff.mp (of_decide_eq_true h2.1)
  have h4 : c.toNat ≤ 90 := charLe_iff.mp (of_decide_eq_true h2.2)
  rw [lowerC, if_pos h]
  exact charToNat_ofNat (Or.inl (by omega))

/-- If `d` is not a lowercase ASCII letter, only `d` itself lower-cases to
`d`. -/
theorem lowerC_fix {d : Char} (hd : ¬(97 ≤ d.toNat ∧ d.toNat ≤ 122)) {c : Char}
    (h : lowerC c = d) : c = d := by
  by_cases hu : ('A' ≤ c && c ≤ 'Z') = true
  · exfalso
    have h2 := (Bool.and_eq_true _ _).mp hu
    have h3 : 65 ≤ c.toNat := charLe_iff.mp (of_decide_eq_true h2.1)
    have h4 : c.toNat ≤ 90 := charLe_iff.mp (of_decide_eq_true h2.2)
    have h5 : (lowerC c).toNat = c.toNat + 32 := toNat_lowerC_of_upper hu
    rw [h] at h5
    exact hd (by omega)
  · rw [lowerC, if_neg hu] at h
    exact h

theorem startsWithL_false_of_head {p : Char} {ps l : List Char} (h : p ∉ l) :
    startsWithL l (p :: ps) = false := by
  cases l with
  | nil => rfl
  | cons c cs =>
    have : (c == p) = false := by
      simp only [beq_eq_false_iff_ne, ne_eq]
      intro hcp
      exact h (hcp ▸ List.mem_cons_self c cs)
    simp [startsWithL, this]

theorem mem_of_startsWithL {l pat : List Char} (h : startsWithL l pat = true) :
    ∀ c ∈ pat, c ∈ l := by
  induction pat generalizing l with
  | nil => intro c hc; simp at hc
  | cons p ps ih =>
    cases l with
    | nil => simp [startsWithL] at h
    | cons a as =>
      simp only [startsWithL, Bool.and_eq_true, beq_iff_eq] at h
      intro c hc
      rcases List.mem_cons.mp hc with h1 | h1
      · exact List.mem_cons.mpr (Or.inl (by rw [h1, h.1]))
      · exact List.mem_cons.mpr (Or.inr (ih h.2 c h1))

theorem ciStartsWithL_false_of_head {p : Char} {ps l : List Char}
    (hp : ∀ c, lowerC c = lowerC p → c = p) (h : p ∉ l) :
    ciStartsWithL l (p :: ps) = false := by
  cases l with
  | nil => rfl
  | cons c cs =>
    have : (lowerC c == lowerC p) = false := by
      simp only [beq_eq_false_iff_ne, ne_eq]
      intro hcp
      exact h ((hp c hcp) ▸ List.mem_cons_self c cs)
    simp [ciStartsWithL, this]

theorem head_mem_of_hasSubL {p : Char} {ps l : List Char}
    (h : hasSubL (p :: ps) l = true) : p ∈ l := by
  induction l with
  | nil => simp [hasSubL, startsWithL] at h
  | cons c cs ih =>
    simp only [hasSubL, Bool.or_eq_true] at h
    rcases h with h1 | h1
    · exact mem_of_startsWithL h1 p (List.mem_cons_self p ps)
    · exact List.mem_cons_of_mem c (ih h1)

theorem hasSubL_false_of_head {p : Char} {ps l : List Char} (h : p ∉ l) :
    hasSubL (p :: ps) l = false := by
  cases hs : hasSubL (p :: ps) l
  · rfl
  · exact absurd (head_mem_of_hasSubL hs) h

theorem countWhile_zero_of_head {p : Char → Bool} {c : Char} {cs : List Char}
    (h : p c = false) : countWhile p (c :: cs) = 0 := by
  simp [countWhile, h]

theorem mem_of_mem_take {a : Char} {n : Nat} {l : List Char} (h : a ∈ l.take n) : a ∈ l :=
  (List.take_sublist n l).mem h

theorem mem_jsTrim {a : Char} {l : List Char} (h : a ∈ jsTrim l) : a ∈ l := by
  unfold jsTrim at h
  rw [List.mem_reverse] at h
  have h2 := (List.dropWhile_sublist _).mem h
  rw [List.mem_reverse] at h2
  exact (List.dropWhile_sublist _).mem h2

theorem descFind_eq_some {p : Nat → Option α} {r : α} :
    ∀ n, descFind p n = some r → ∃ k, k ≤ n ∧ p k = some r := by
  intro n
  induction n with
  | zero => intro h; exact ⟨0, Nat.le_refl 0, h⟩
  | succ n ih =>
    intro h
    rw [descFind] at h
    cases hp : p (n + 1) with
    | some v => rw [hp] at h; exact ⟨n + 1, Nat.le_refl _, hp.trans h⟩
    | none =>
      rw [hp] at h
      obtain ⟨k, hk, hpk⟩ := ih h
      exact ⟨k, by omega, hpk⟩

theorem ascFind_eq_some {p : Nat → Option α} {r : α} :
    ∀ cnt lo, ascFind p lo cnt = some r → ∃ k, lo ≤ k ∧ p k = some r := by
  intro cnt
  induction cnt with
  | zero => intro lo h; simp [ascFind] at h
  | succ cnt ih =>
    intro lo h
    rw [ascFind] at h
    cases hp : p lo with
    | some v => rw [hp] at h; exact ⟨lo, Nat.le_refl _, hp.trans h⟩
    | none =>
      rw [hp] at h
      obtain ⟨k, hk, hpk⟩ := ih (lo + 1) h
      exact ⟨k, by omega, hpk⟩

theorem mem_of_ciStartsWithL {l pat : List Char} (h : ciStartsWithL l pat = true) :
    ∀ c ∈ pat, ∃ d ∈ l, lowerC d = lowerC c := by
  induction pat generalizing l with
  | nil => intro c hc; simp at hc
  | cons p ps ih =>
    cases l with
    | nil => simp [ciStartsWithL] at h
    | cons a as =>
      simp only [ciStartsWithL, Bool.and_eq_true, beq_iff_eq] at h
      intro c hc
      rcases List.mem_cons.mp hc with h1 | h1
      · exact ⟨a, List.mem_cons_self a as, h1 ▸ h.1⟩
      · obtain ⟨d, hd, hld⟩ := ih h.2 c h1
        exact ⟨d, List.mem_cons_of_mem a hd, hld⟩

theorem startsWithL_false_of_missing {c : Char} {pat l : List Char} (hc : c ∈ pat)
    (h : c ∉ l) : startsWithL l pat = false := by
  cases hs : startsWithL l pat
  · rfl
  · exact absurd (mem_of_startsWithL hs c hc) h

theorem lowerC_fix_nonletter {d : Char} (hd : ¬(97 ≤ d.toNat ∧ d.toNat ≤ 122))
    (hself : lowerC d = d) : ∀ c, lowerC c = lowerC d → c = d := by
  intro c hc
  rw [hself] at hc
  exact lowerC_fix hd hc

theorem ciStartsWithL_false_of_missing {c : Char} {pat l : List Char} (hc : c ∈ pat)
    (hfix : ∀ d, lowerC d = lowerC c → d = c) (h : c ∉ l) :
    ciStartsWithL l pat = false := by
  cases hs : ciStartsWithL l pat
  · rfl
  · obtain ⟨d, hd, hld⟩ := mem_of_ciStartsWithL hs c hc
    exact absurd ((hfix d hld) ▸ hd) h

theorem mem_joinSep {sep : List Char} {a : Char} :
    ∀ xs, a ∈ joinSep sep xs → (∃ t ∈ xs, a ∈ t) ∨ a ∈ sep
  | [], h => by simp [joinSep] at h
  | [x], h => Or.inl ⟨x, List.mem_singleton_self x, h⟩
  | x :: y :: rest, h => by
    rw [joinSep] at h
    rcases List.mem_append.mp h with h1 | h1
    · rcases List.mem_append.mp h1 with h2 | h2
      · exact Or.inl ⟨x, List.mem_cons_self _ _, h2⟩
      · exact Or.inr h2
    · rcases mem_joinSep (y :: rest) h1 with ⟨t, ht, hat⟩ | h2
      · exact Or.inl ⟨t, List.mem_cons_of_mem x ht, hat⟩
      · exact Or.inr h2

theorem mem_splitOnSubF {sep : List Char} {a : Char} :
    ∀ f l t, t ∈ splitOnSubF sep f l → a ∈ t → a ∈ l := by
  intro f
  induction f with
  | zero =>
    intro l t ht ha
    cases l with
    | nil => simp [splitOnSubF] at ht; subst ht; simp at ha
    | cons c cs =>
      simp only [splitOnSubF, List.mem_singleton] at ht
      exact ht ▸ ha
  | succ f ih =>
    intro l t ht ha
    cases l with
    | nil => simp [splitOnSubF] at ht; subst ht; simp at ha
    | cons c cs =>
      rw [splitOnSubF] at ht
      split at ht
      · rcases List.mem_cons.mp ht with h1 | h1
        · subst h1; simp at ha
        · exact List.mem_of_mem_drop (ih _ t h1 ha)
      · revert ht
        cases hsp : splitOnSubF sep f cs with
        | nil =>
          intro ht
          rcases List.mem_singleton.mp ht
          rcases List.mem_cons.mp ha with h2 | h2
          · exact h2 ▸ List.mem_cons_self c cs
          · simp at h2
        | cons b rest =>
          intro ht
          rcases List.mem_cons.mp ht with h1 | h1
          · subst h1
            rcases List.mem_cons.mp ha with h2 | h2
            · exact h2 ▸ List.mem_cons_self c cs
            · exact List.mem_cons_of_mem c (ih cs b (hsp ▸ List.mem_cons_self b rest) h2)
          · exact List.mem_cons_of_mem c (ih cs t (hsp ▸ List.mem_cons_of_mem b h1) ha)

theorem mem_cellsJoin {s : List Char} {a : Char} (h : a ∈ cellsJoin s) :
    a ∈ s ∨ a ∈ (" | ".data) := by
  unfold cellsJoin at h
  rcases mem_joinSep _ h with ⟨t, ht, hat⟩ | h2
  · rcases List.mem_filter.mp ht with ⟨ht2, _⟩
    obtain ⟨u, hu, hut⟩ := List.mem_map.mp ht2
    exact Or.inl (mem_splitOnSubF _ _ _ hu (mem_jsTrim (hut ▸ hat)))
  · exact Or.inr h2

/-! ## Matchers that cannot fire when their trigger character is absent -/

theorem tryDisplayTitle_none {l : List Char} (h : '\x7b' ∉ l) : tryDisplayTitle l = none := by
  unfold tryDisplayTitle
  rw [ciStartsWithL_false_of_missing (c := '\x7b') (by decide)
    (lowerC_fix_nonletter (by decide) (by decide)) h]
  simp

theorem tryFileImage_none {l : List Char} (h : '[' ∉ l) : tryFileImage l = none := by
  unfold tryFileImage
  rw [startsWithL_false_of_missing (c := '[') (by decide) h]
  simp

theorem tryCategory_none {l : List Char} (h : '[' ∉ l) : tryCategory l = none := by
  unfold tryCategory
  rw [startsWithL_false_of_missing (c := '[') (by decide) h]
  simp

theorem tryTemplate_none {l : List Char} (h : '\x7b' ∉ l) : tryTemplate l = none := by
  unfold tryTemplate
  rw [startsWithL_false_of_missing (c := '\x7b') (by decide) h]
  simp

theorem tryTableStart_none {l : List Char} (h : '\x7b' ∉ l) : tryTableStart l = none := by
  unfold tryTableStart
  rw [startsWithL_false_of_missing (c := '\x7b') (by decide) h]
  simp

theorem tryTableEnd_none {l : List Char} (h : '\x7d' ∉ l) : tryTableEnd l = none := by
  unfold tryTableEnd
  rw [startsWithL_false_of_missing (c := '\x7d') (by decide) h]
  simp

theorem tryPipedLink_none {l : List Char} (h : '[' ∉ l) : tryPipedLink l = none := by
  unfold tryPipedLink
  rw [startsWithL_false_of_missing (c := '[') (by decide) h]
  simp

theorem tryLink_none {l : List Char} (h : '[' ∉ l) : tryLink l = none := by
  unfold tryLink
  rw [startsWithL_false_of_missing (c := '[') (by decide) h]
  simp

theorem tryExtLabeled_none {l : List Char} (h : '[' ∉ l) : tryExtLabeled l = none := by
  unfold tryExtLabeled
  split
  · rename_i r
    exact absurd (List.mem_cons_self '[' r) h
  · rfl

theorem tryExtBare_none {l : List Char} (h : '[' ∉ l) : tryExtBare l = none := by
  unfold tryExtBare
  split
  · rename_i r
    exact absurd (List.mem_cons_self '[' r) h
  · rfl

theorem tryLit_amp_none {ps rep l : List Char} (h : '&' ∉ l) :
    tryLit ('&' :: ps) rep l = none := by
  unfold tryLit
  rw [ciStartsWithL_false_of_missing (c := '&') (List.mem_cons_self _ _)
    (lowerC_fix_nonletter (by decide) (by decide)) h]
  simp

theorem tryDecEnt_none {l : List Char} (h : '&' ∉ l) : tryDecEnt l = none := by
  unfold tryDecEnt
  rw [startsWithL_false_of_missing (c := '&') (by decide) h]
  simp

theorem tryHexEnt_none {l : List Char} (h : '&' ∉ l) : tryHexEnt l = none := by
  unfold tryHexEnt
  rw [ciStartsWithL_false_of_missing (c := '&') (by decide)
    (lowerC_fix_nonletter (by decide) (by decide)) h]
  simp

/-! ## What each remaining matcher emits -/

theorem tryNoinclude_emit {l e : List Char} {n : Nat}
    (h : tryNoinclude l = some (e, n)) : e = [] := by
  unfold tryNoinclude at h
  try dsimp only at h
  split at h
  · split at h
    · simp only [Option.some.injEq, Prod.mk.injEq] at h
      exact h.1.symm
    · exact Option.noConfusion h
  · exact Option.noConfusion h

theorem tryIncludeonly_emit {l e : List Char} {n : Nat}
    (h : tryIncludeonly l = some (e, n)) : e = [] := by
  unfold tryIncludeonly at h
  try dsimp only at h
  split at h
  · simp only [Option.some.injEq, Prod.mk.injEq] at h
    exact h.1.symm
  · split at h
    · simp only [Option.some.injEq, Prod.mk.injEq] at h
      exact h.1.symm
    · exact Option.noConfusion h

theorem tryComment_emit {l e : List Char} {n : Nat}
    (h : tryComment l = some (e, n)) : e = [] := by
  unfold tryComment at h
  try dsimp only at h
  split at h
  · split at h
    · simp only [Option.some.injEq, Prod.mk.injEq] at h
      exact h.1.symm
    · exact Option.noConfusion h
  · exact Option.noConfusion h

theorem tryMagic_emit {l e : List Char} {n : Nat}
    (h : tryMagic l = some (e, n)) : e = [] := by
  unfold tryMagic at h
  try dsimp only at h
  split at h
  · simp only [Option.some.injEq, Prod.mk.injEq] at h
    exact h.1.symm
  · split at h
    · simp only [Option.some.injEq, Prod.mk.injEq] at h
      exact h.1.symm
    · split at h
      · simp only [Option.some.injEq, Prod.mk.injEq] at h
        exact h.1.symm
      · exact Option.noConfusion h

theorem tryRowSep_emit {l e : List Char} {n : Nat}
    (h : tryRowSep l = some (e, n)) : e = [] := by
  unfold tryRowSep at h
  try dsimp only at h
  split at h
  · simp only [Option.some.injEq, Prod.mk.injEq] at h
    exact h.1.symm
  · exact Option.noConfusion h

theorem tryTag_emit {l e : List Char} {n : Nat}
    (h : tryTag l = some (e, n)) : e = [] := by
  unfold tryTag at h
  try dsimp only at h
  split at h
  · split at h
    · exact Option.noConfusion h
    · split at h
      · simp only [Option.some.injEq, Prod.mk.injEq] at h
        exact h.1.symm
      · exact Option.noConfusion h
  · exact Option.noConfusion h

theorem trySemis_emit {l e : List Char} {n : Nat}
    (h : trySemis l = some (e, n)) : e = [] := by
  unfold trySemis at h
  try dsimp only at h
  split at h
  · exact Option.noConfusion h
  · simp only [Option.some.injEq, Prod.mk.injEq] at h
    exact h.1.symm

theorem tryHr_emit {l e : List Char} {n : Nat}
    (h : tryHr l = some (e, n)) : e = [] := by
  unfold tryHr at h
  try dsimp only at h
  split at h
  · obtain ⟨k, _, hp⟩ := descFind_eq_some _ h
    split at hp
    · simp only [Option.some.injEq, Prod.mk.injEq] at hp
      exact hp.1.symm
    · exact Option.noConfusion hp
  · exact Option.noConfusion h

theorem tryBr_emit {l e : List Char} {n : Nat}
    (h : tryBr l = some (e, n)) : e = ['\n'] := by
  unfold tryBr at h
  try dsimp only at h
  split at h
  · split at h
    · simp only [Option.some.injEq, Prod.mk.injEq] at h
      exact h.1.symm
    · simp only [Option.some.injEq, Prod.mk.injEq] at h
      exact h.1.symm
    · exact Option.noConfusion h
  · exact Option.noConfusion h

theorem tryStars_emit {l e : List Char} {n : Nat}
    (h : tryStars l = some (e, n)) : e = "- ".data := by
  unfold tryStars at h
  try dsimp only at h
  split at h
  · exact Option.noConfusion h
  · simp only [Option.some.injEq, Prod.mk.injEq] at h
    exact h.1.symm

theorem tryHashes_emit {l e : List Char} {n : Nat}
    (h : tryHashes l = some (e, n)) : e = "- ".data := by
  unfold tryHashes at h
  try dsimp only at h
  split at h
  · exact Option.noConfusion h
  · simp only [Option.some.injEq, Prod.mk.injEq] at h
    exact h.1.symm

theorem tryColons_emit {l e : List Char} {n : Nat}
    (h : tryColons l = some (e, n)) : e = "  ".data := by
  unfold tryColons at h
  try dsimp only at h
  split at h
  · exact Option.noConfusion h
  · simp only [Option.some.injEq, Prod.mk.injEq] at h
    exact h.1.symm

theorem tryHWs_emit {l e : List Char} {n : Nat}
    (h : tryHWs l = some (e, n)) : e = [' '] := by
  unfold tryHWs at h
  try dsimp only at h
  split at h
  · split at h
    · simp only [Option.some.injEq, Prod.mk.injEq] at h
      exact h.1.symm
    · exact Option.noConfusion h
  · exact Option.noConfusion h

theorem tryNl3_emit {l e : List Char} {n : Nat}
    (h : tryNl3 l = some (e, n)) : e = ['\n', '\n'] := by
  unfold tryNl3 at h
  try dsimp only at h
  split at h
  · simp only [Option.some.injEq, Prod.mk.injEq] at h
    exact h.1.symm
  · exact Option.noConfusion h

theorem tryCaption_emit {l e : List Char} {n : Nat}
    (h : tryCaption l = some (e, n)) : ∀ a ∈ e, a ∈ l := by
  unfold tryCaption at h
  try dsimp only at h
  split at h
  · simp only [Option.some.injEq, Prod.mk.injEq] at h
    intro a ha
    rw [← h.1] at ha
    exact List.mem_of_mem_drop (List.mem_of_mem_drop (mem_of_mem_take ha))
  · exact Option.noConfusion h

theorem tryHeaderCell_emit {l e : List Char} {n : Nat}
    (h : tryHeaderCell l = some (e, n)) : ∀ a ∈ e, a ∈ l := by
  unfold tryHeaderCell at h
  try dsimp only at h
  split at h
  · rename_i r
    simp only [Option.some.injEq, Prod.mk.injEq] at h
    intro a ha
    rw [← h.1] at ha
    exact List.mem_cons_of_mem _ (List.mem_of_mem_drop (mem_of_mem_take ha))
  · exact Option.noConfusion h

theorem tryCell_emit {l e : List Char} {n : Nat}
    (h : tryCell l = some (e, n)) : ∀ a ∈ e, a ∈ l ∨ a ∈ (" | ".data) := by
  unfold tryCell at h
  try dsimp only at h
  split at h
  · rename_i r
    simp only [Option.some.injEq, Prod.mk.injEq] at h
    intro a ha
    rw [← h.1] at ha
    rcases mem_cellsJoin ha with h1 | h1
    · exact Or.inl (List.mem_cons_of_mem _ (List.mem_of_mem_drop (mem_of_mem_take h1)))
    · exact Or.inr h1
  · exact Option.noConfusion h

theorem tryEmph_emit {q : Nat} {l e : List Char} {n : Nat}
    (h : tryEmph q l = some (e, n)) : ∀ a ∈ e, a ∈ l := by
  unfold tryEmph at h
  try dsimp only at h
  split at h
  · split at h
    · simp only [Option.some.injEq, Prod.mk.injEq] at h
      intro a ha
      rw [← h.1] at ha
      exact List.mem_of_mem_drop (mem_of_mem_take ha)
    · exact Option.noConfusion h
  · exact Option.noConfusion h

theorem tryHeaderLine_emit {l e : List Char} {n : Nat}
    (h : tryHeaderLine l = some (e, n)) : ∀ a ∈ e, a ∈ l ∨ a = '\n' := by
  unfold tryHeaderLine at h
  try dsimp only at h
  split at h
  · exact Option.noConfusion h
  · obtain ⟨k1, _, h1⟩ := descFind_eq_some _ h
    split at h1
    · exact Option.noConfusion h1
    · obtain ⟨j1, _, h2⟩ := descFind_eq_some _ h1
      obtain ⟨i, _, h3⟩ := ascFind_eq_some _ _ h2
      obtain ⟨j2, _, h4⟩ := descFind_eq_some _ h3
      obtain ⟨k2, _, h5⟩ := descFind_eq_some _ h4
      split at h5
      · exact Option.noConfusion h5
      · obtain ⟨j3, _, h6⟩ := descFind_eq_some _ h5
        split at h6
        · simp only [Option.some.injEq, Prod.mk.injEq] at h6
          intro a ha
          rw [← h6.1] at ha
          rcases List.mem_cons.mp ha with h7 | h7
          · exact Or.inr h7
          · rcases List.mem_append.mp h7 with h8 | h8
            · exact Or.inl (List.mem_of_mem_drop (List.mem_of_mem_drop (mem_of_mem_take h8)))
            · exact Or.inr (List.mem_singleton.mp h8)
        · exact Option.noConfusion h6

/-! ## Generic facts about the scanners -/

/-- If, on every suffix satisfying `P`, the matcher either fails or merely
re-emits the head character, the scan is the identity. -/
theorem scanRepl_eq_self {P : List Char → Prop} {tf : List Char → Hit}
    (hsuf : ∀ c cs, P (c :: cs) → P cs)
    (hnone : ∀ l, P l → tf l = none ∨ tf l = some (l.take 1, 1)) :
    ∀ f l, P l → scanRepl tf f l = l := by
  intro f
  induction f with
  | zero => intro l _; cases l <;> simp [scanRepl]
  | succ f ih =>
    intro l hP
    cases l with
    | nil => simp [scanRepl]
    | cons c cs =>
      rcases hnone _ hP with h | h
      · simp [scanRepl, h, ih cs (hsuf c cs hP)]
      · have h' : tf (c :: cs) = some ([c], 1) := by
          rw [h]; norm_num
        simp [scanRepl, h', ih cs (hsuf c cs hP)]

/-- `lineScan` version of `scanRepl_eq_self`. -/
theorem lineScan_eq_self {P : List Char → Prop} {tf : List Char → Hit}
    (hsuf : ∀ c cs, P (c :: cs) → P cs)
    (hnone : ∀ l, P l → tf l = none ∨ tf l = some (l.take 1, 1)) :
    ∀ f b l, P l → lineScan tf f b l = l := by
  intro f
  induction f with
  | zero => intro b l _; cases l <;> simp [lineScan]
  | succ f ih =>
    intro b l hP
    cases l with
    | nil => simp [lineScan]
    | cons c cs =>
      cases b with
      | false => simp [lineScan, ih _ cs (hsuf c cs hP)]
      | true =>
        rcases hnone _ hP with h | h
        · simp [lineScan, h, ih _ cs (hsuf c cs hP)]
        · have h' : tf (c :: cs) = some ([c], 1) := by
            rw [h]; norm_num
          simp [lineScan, h', endsAtNl, ih _ cs (hsuf c cs hP)]

/-- Every character a scan emits is a character of the input or one of the
finitely many characters `extra` the replacement templates introduce. -/
theorem mem_scanRepl {tf : List Char → Hit} {extra : List Char}
    (htf : ∀ l emit n, tf l = some (emit, n) → ∀ c ∈ emit, c ∈ l ∨ c ∈ extra) :
    ∀ f l a, a ∈ scanRepl tf f l → a ∈ l ∨ a ∈ extra := by
  intro f
  induction f with
  | zero =>
    intro l a h
    cases l with
    | nil => simp [scanRepl] at h
    | cons c cs => exact Or.inl h
  | succ f ih =>
    intro l a h
    cases l with
    | nil => simp [scanRepl] at h
    | cons c cs =>
      rw [scanRepl] at h
      cases htf0 : tf (c :: cs) with
      | none =>
        rw [htf0] at h
        rcases List.mem_cons.mp h with h1 | h1
        · exact Or.inl (h1 ▸ List.mem_cons_self c cs)
        · rcases ih cs a h1 with h2 | h2
          · exact Or.inl (List.mem_cons_of_mem c h2)
          · exact Or.inr h2
      | some pr =>
        obtain ⟨emit, n⟩ := pr
        rw [htf0] at h
        by_cases hn : n = 0
        · simp only [hn, if_pos rfl] at h
          rcases List.mem_cons.mp h with h1 | h1
          · exact Or.inl (h1 ▸ List.mem_cons_self c cs)
          · rcases ih cs a h1 with h2 | h2
            · exact Or.inl (List.mem_cons_of_mem c h2)
            · exact Or.inr h2
        · simp only [if_neg hn] at h
          rcases List.mem_append.mp h with h1 | h1
          · exact htf _ _ _ htf0 a h1
          · rcases ih _ a h1 with h2 | h2
            · exact Or.inl (List.mem_of_mem_drop h2)
            · exact Or.inr h2

/-- `lineScan` version of `mem_scanRepl`. -/
theorem mem_lineScan {tf : List Char → Hit} {extra : List Char}
    (htf : ∀ l emit n, tf l = some (emit, n) → ∀ c ∈ emit, c ∈ l ∨ c ∈ extra) :
    ∀ f b l a, a ∈ lineScan tf f b l → a ∈ l ∨ a ∈ extra := by
  intro f
  induction f with
  | zero =>
    intro b l a h
    cases l with
    | nil => simp [lineScan] at h
    | cons c cs => exact Or.inl h
  | succ f ih =>
    intro b l a h
    cases l with
    | nil => simp [lineScan] at h
    | cons c cs =>
      rw [lineScan] at h
      have hpass : a ∈ c :: lineScan tf f (c == '\n') cs → a ∈ c :: cs ∨ a ∈ extra := by
        intro h1
        rcases List.mem_cons.mp h1 with h2 | h2
        · exact Or.inl (h2 ▸ List.mem_cons_self c cs)
        · rcases ih _ cs a h2 with h3 | h3
          · exact Or.inl (List.mem_cons_of_mem c h3)
          · exact Or.inr h3
      cases b with
      | false => exact hpass (by simpa using h)
      | true =>
        simp only [if_pos rfl] at h
        cases htf0 : tf (c :: cs) with
        | none => rw [htf0] at h; exact hpass h
        | some pr =>
          obtain ⟨emit, n⟩ := pr
          rw [htf0] at h
          by_cases hn : n = 0
          · simp only [hn, if_pos rfl] at h
            exact hpass h
          · simp only [if_neg hn] at h
            rcases List.mem_append.mp h with h1 | h1
            · exact htf _ _ _ htf0 a h1
            · rcases ih _ _ a h1 with h2 | h2
              · exact Or.inl (List.mem_of_mem_drop h2)
              · exact Or.inr h2

/-! ## Claim C6 -/

theorem ptGo_spec : ∀ f prev s, (s = prev → tmplPass s = s) →
    ∃ n, n ≤ f ∧ ptGo f prev s = passIter n s ∧
      (n < f → tmplPass (ptGo f prev s) = ptGo f prev s) := by
  intro f
  induction f with
  | zero => intro prev s _; exact ⟨0, Nat.le_refl 0, rfl, by omega⟩
  | succ f ih =>
    intro prev s h
    by_cases hsp : s = prev
    · have hstop : ptGo (f + 1) prev s = s := by simp [ptGo, hsp]
      refine ⟨0, Nat.zero_le _, by simp [hstop, passIter], ?_⟩
      intro _
      rw [hstop]
      exact h hsp
    · have hne : (s == prev) = false := by simp [hsp]
      have hstep : ptGo (f + 1) prev s = ptGo f s (tmplPass s) := by
        simp [ptGo, hne]
      obtain ⟨n, hn, heq, hfix⟩ := ih s (tmplPass s) (fun hts => by rw [hts]; exact hts)
      refine ⟨n + 1, by omega, ?_, ?_⟩
      · rw [hstep, heq]; rfl
      · intro hlt
        rw [hstep]
        exact hfix (by omega)

/-- Claim C6: `processTemplates` performs at most 50 replacement passes on
every input and always returns (totally, without error); its result is
exactly the `n`-fold image of the single rewrite pass for some `n ≤ 50`, so
when the cap is reached any unresolved markers are simply what the 50th
pass left behind, and when the loop stops early its result is a fixed point
of the rewrite pass. -/
theorem claim_C6 (s : List Char) :
    ∃ n, n ≤ 50 ∧ processTemplates s = passIter n s ∧
      (n < 50 → tmplPass (processTemplates s) = processTemplates s) := by
  have h := ptGo_spec 50 [] s (fun hs => by subst hs; rfl)
  simpa [processTemplates] using h

/-! ## Claim C2 -/

/-- When one replacement pass is the identity, the whole capped loop is. -/
theorem processTemplates_id {s : List Char} (h : tmplPass s = s) :
    processTemplates s = s := by
  unfold processTemplates
  by_cases hs : s = []
  · subst hs; rfl
  · have hne : (s == ([] : List Char)) = false := by simp [hs]
    simp [ptGo, hne, h]

/-- The entity decoder is the identity on ampersand-free text. -/
theorem decodeHtmlEntities_id {t : List Char} (h : '&' ∉ t) :
    decodeHtmlEntities t = t := by
  have hsuf : ∀ (c : Char) (cs : List Char), '&' ∉ c :: cs → '&' ∉ cs :=
    fun c cs hP hx => hP (List.mem_cons_of_mem c hx)
  unfold decodeHtmlEntities
  dsimp only
  have hfold : ∀ (tbl : List (List Char × List Char)),
      (∀ pr ∈ tbl, pr.1 = '&' :: pr.1.tail) →
      tbl.foldl (fun acc pr => runS (tryLit pr.1 pr.2) acc) t = t := by
    intro tbl htbl
    induction tbl with
    | nil => rfl
    | cons pr rest ih =>
      simp only [List.foldl_cons]
      have hps := htbl pr (List.mem_cons_self _ _)
      have hid : runS (tryLit pr.1 pr.2) t = t :=
        scanRepl_eq_self (P := fun l => '&' ∉ l) hsuf
          (fun l hP => Or.inl (by rw [hps]; exact tryLit_amp_none hP)) _ t h
      rw [hid]
      exact ih (fun pr2 h2 => htbl pr2 (List.mem_cons_of_mem _ h2))
  rw [hfold entityTable (by decide)]
  have h1 : runS tryDecEnt t = t :=
    scanRepl_eq_self (P := fun l => '&' ∉ l) hsuf
      (fun l hP => Or.inl (tryDecEnt_none hP)) _ t h
  rw [h1]
  exact scanRepl_eq_self (P := fun l => '&' ∉ l) hsuf
    (fun l hP => Or.inl (tryHexEnt_none hP)) _ t h

/-- No rewrite stage introduces a template/link delimiter character (or an
ampersand that could later decode into one): the delimiter-character-free
strings are closed under `parseWikitext`. -/
theorem parseWikitext_ND {s : List Char} (h : ∀ c ∈ s, c ∉ delimSet) :
    ∀ c ∈ parseWikitext s, c ∉ delimSet := by
  have hex : ∀ a ∈ stageExtra, a ∉ delimSet := by decide
  have memS : ∀ (tf : List Char → Hit),
      (∀ (l e : List Char) (n : Nat), tf l = some (e, n) → ∀ a ∈ e, a ∈ l ∨ a ∈ stageExtra) →
      ∀ {t : List Char}, (∀ c ∈ t, c ∉ delimSet) → ∀ c ∈ runS tf t, c ∉ delimSet := by
    intro tf htf t ht c hc
    rcases mem_scanRepl (fun l e n he => htf l e n he) _ _ c hc with h1 | h1
    · exact ht c h1
    · exact hex c h1
  have memL : ∀ (tf : List Char → Hit),
      (∀ (l e : List Char) (n : Nat), tf l = some (e, n) → ∀ a ∈ e, a ∈ l ∨ a ∈ stageExtra) →
      ∀ {t : List Char}, (∀ c ∈ t, c ∉ delimSet) → ∀ c ∈ runL tf t, c ∉ delimSet := by
    intro tf htf t ht c hc
    rcases mem_lineScan (fun l e n he => htf l e n he) _ _ _ c hc with h1 | h1
    · exact ht c h1
    · exact hex c h1
  have hsufND : ∀ (c : Char) (cs : List Char),
      (∀ a ∈ c :: cs, a ∉ delimSet) → ∀ a ∈ cs, a ∉ delimSet :=
    fun c cs hP a ha => hP a (List.mem_cons_of_mem c ha)
  have idS : ∀ (tf : List Char → Hit),
      (∀ l : List Char, (∀ c ∈ l, c ∉ delimSet) → tf l = none) →
      ∀ {t : List Char}, (∀ c ∈ t, c ∉ delimSet) → ∀ c ∈ runS tf t, c ∉ delimSet := by
    intro tf htf t ht
    rw [show runS tf t = t from
      scanRepl_eq_self (P := fun l => ∀ c ∈ l, c ∉ delimSet) hsufND
        (fun l hP => Or.inl (htf l hP)) _ t ht]
    exact ht
  have idL : ∀ (tf : List Char → Hit),
      (∀ l : List Char, (∀ c ∈ l, c ∉ delimSet) → tf l = none) →
      ∀ {t : List Char}, (∀ c ∈ t, c ∉ delimSet) → ∀ c ∈ runL tf t, c ∉ delimSet := by
    intro tf htf t ht
    rw [show runL tf t = t from
      lineScan_eq_self (P := fun l => ∀ c ∈ l, c ∉ delimSet) hsufND
        (fun l hP => Or.inl (htf l hP)) _ _ t ht]
    exact ht
  have wEmpty : ∀ (tf : List Char → Hit),
      (∀ (l e : List Char) (n : Nat), tf l = some (e, n) → e = []) →
      ∀ (l e : List Char) (n : Nat), tf l = some (e, n) →
        ∀ a ∈ e, a ∈ l ∨ a ∈ stageExtra := by
    intro tf htf l e n he a ha
    rw [htf l e n he] at ha
    simp at ha
  have wConst : ∀ (tf : List Char → Hit) (k : List Char),
      (∀ (l e : List Char) (n : Nat), tf l = some (e, n) → e = k) →
      (∀ a ∈ k, a ∈ stageExtra) →
      ∀ (l e : List Char) (n : Nat), tf l = some (e, n) →
        ∀ a ∈ e, a ∈ l ∨ a ∈ stageExtra := by
    intro tf k htf hk l e n he a ha
    rw [htf l e n he] at ha
    exact Or.inr (hk a ha)
  have wSub : ∀ (tf : List Char → Hit),
      (∀ (l e : List Char) (n : Nat), tf l = some (e, n) → ∀ a ∈ e, a ∈ l) →
      ∀ (l e : List Char) (n : Nat), tf l = some (e, n) →
        ∀ a ∈ e, a ∈ l ∨ a ∈ stageExtra :=
    fun tf htf l e n he a ha => Or.inl (htf l e n he a ha)
  have hTmpl : ∀ {t : List Char}, (∀ c ∈ t, c ∉ delimSet) →
      ∀ c ∈ processTemplates t, c ∉ delimSet := by
    intro t ht
    rw [processTemplates_id (show tmplPass t = t from
      scanRepl_eq_self (P := fun l => ∀ c ∈ l, c ∉ delimSet) hsufND
        (fun l hP => Or.inl (tryTemplate_none (fun hm => hP _ hm (by decide)))) _ t ht)]
    exact ht
  have hTbl : ∀ {t : List Char}, (∀ c ∈ t, c ∉ delimSet) →
      ∀ c ∈ processTables t, c ∉ delimSet := by
    intro t ht
    unfold processTables
    have hsubcell : ∀ a ∈ (" | ".data), a ∈ stageExtra := by decide
    apply memL tryCell (fun l e n he a ha => by
      rcases tryCell_emit he a ha with h1 | h1
      · exact Or.inl h1
      · exact Or.inr (hsubcell a h1))
    apply memL tryHeaderCell (wSub _ (fun l e n he => tryHeaderCell_emit he))
    apply memL tryRowSep (wEmpty _ (fun l e n he => tryRowSep_emit he))
    apply memL tryCaption (wSub _ (fun l e n he => tryCaption_emit he))
    apply idL tryTableEnd (fun l hP => tryTableEnd_none (fun hm => hP _ hm (by decide)))
    apply idL tryTableStart (fun l hP => tryTableStart_none (fun hm => hP _ hm (by decide)))
    exact ht
  have hEnt : ∀ {t : List Char}, (∀ c ∈ t, c ∉ delimSet) →
      ∀ c ∈ decodeHtmlEntities t, c ∉ delimSet := by
    intro t ht
    rw [decodeHtmlEntities_id (fun hm => ht '&' hm (by decide))]
    exact ht
  have hTrim : ∀ {t : List Char}, (∀ c ∈ t, c ∉ delimSet) →
      ∀ c ∈ jsTrim t, c ∉ delimSet :=
    fun ht c hc => ht c (mem_jsTrim hc)
  unfold parseWikitext
  apply hTrim
  apply memS tryNl3 (wConst _ _ (fun l e n he => tryNl3_emit he) (by decide))
  apply memS tryHWs (wConst _ _ (fun l e n he => tryHWs_emit he) (by decide))
  apply hEnt
  apply memL tryHr (wEmpty _ (fun l e n he => tryHr_emit he))
  apply memL tryColons (wConst _ _ (fun l e n he => tryColons_emit he) (by decide))
  apply memL trySemis (wEmpty _ (fun l e n he => trySemis_emit he))
  apply memL tryHashes (wConst _ _ (fun l e n he => tryHashes_emit he) (by decide))
  apply memL tryStars (wConst _ _ (fun l e n he => tryStars_emit he) (by decide))
  apply memS tryTag (wEmpty _ (fun l e n he => tryTag_emit he))
  apply memS tryBr (wConst _ _ (fun l e n he => tryBr_emit he) (by decide))
  apply memS (tryEmph 2) (wSub _ (fun l e n he => tryEmph_emit he))
  apply memS (tryEmph 3) (wSub _ (fun l e n he => tryEmph_emit he))
  apply memS (tryEmph 5) (wSub _ (fun l e n he => tryEmph_emit he))
  apply memL tryHeaderLine (fun l e n he a ha => by
    rcases tryHeaderLine_emit he a ha with h1 | h1
    · exact Or.inl h1
    · exact Or.inr (by rw [h1]; decide))
  apply idS tryExtBare (fun l hP => tryExtBare_none (fun hm => hP _ hm (by decide)))
  apply idS tryExtLabeled (fun l hP => tryExtLabeled_none (fun hm => hP _ hm (by decide)))
  apply idS tryLink (fun l hP => tryLink_none (fun hm => hP _ hm (by decide)))
  apply idS tryPipedLink (fun l hP => tryPipedLink_none (fun hm => hP _ hm (by decide)))
  apply hTbl
  apply hTmpl
  apply idS tryCategory (fun l hP => tryCategory_none (fun hm => hP _ hm (by decide)))
  apply idS tryFileImage (fun l hP => tryFileImage_none (fun hm => hP _ hm (by decide)))
  apply idS tryDisplayTitle (fun l hP => tryDisplayTitle_none (fun hm => hP _ hm (by decide)))
  apply memS tryMagic (wEmpty _ (fun l e n he => tryMagic_emit he))
  apply memS tryComment (wEmpty _ (fun l e n he => tryComment_emit he))
  apply memS tryIncludeonly (wEmpty _ (fun l e n he => tryIncludeonly_emit he))
  apply memS tryNoinclude (wEmpty _ (fun l e n he => tryNoinclude_emit he))
  exact h

/-- Claim C2 counterexample: the input consisting of a bare template opener
is returned verbatim, so the output still contains the `«{{»` delimiter. -/
theorem claim_C2_cex :
    parseWikitext ("\x7b\x7b".data) = ("\x7b\x7b".data) ∧
      hasSubL ("\x7b\x7b".data) (parseWikitext ("\x7b\x7b".data)) = true := by
  constructor
  · decide
  · decide

/-- Claim C2 (amended): `normalize` terminates on every input (it is a total
function built from bounded scans), but residual delimiters can survive;
what holds is that on every input containing no brace, bracket or ampersand
character the output contains no template or link delimiter at all. -/
theorem claim_C2 (s : List Char) (h : ∀ c ∈ s, c ∉ delimSet) :
    hasSubL ("\x7b\x7b".data) (parseWikitext s) = false ∧
      hasSubL ("\x7d\x7d".data) (parseWikitext s) = false ∧
      hasSubL ("[[".data) (parseWikitext s) = false ∧
      hasSubL ("]]".data) (parseWikitext s) = false := by
  have hnd := parseWikitext_ND h
  refine ⟨?_, ?_, ?_, ?_⟩ <;>
    exact hasSubL_false_of_head (fun hm => hnd _ hm (by decide))

theorem claim_C2_witness :
    (∀ c ∈ ("hello".data), c ∉ delimSet) ∧
      hasSubL ("\x7b\x7b".data) (parseWikitext ("hello".data)) = false :=
  ⟨by decide, (claim_C2 ("hello".data) (by decide)).1⟩

/-! ## Claim C7 -/

theorem tryNoinclude_none {l : List Char} (h : '<' ∉ l) : tryNoinclude l = none := by
  unfold tryNoinclude
  rw [ciStartsWithL_false_of_missing (c := '<') (by decide)
    (lowerC_fix_nonletter (by decide) (by decide)) h]
  simp

theorem tryIncludeonly_none {l : List Char} (h : '<' ∉ l) : tryIncludeonly l = none := by
  unfold tryIncludeonly
  rw [ciStartsWithL_false_of_missing (c := '<') (by decide)
    (lowerC_fix_nonletter (by decide) (by decide)) h]
  rw [ciStartsWithL_false_of_missing (c := '<') (by decide)
    (lowerC_fix_nonletter (by decide) (by decide)) h]
  simp

theorem tryComment_none {l : List Char} (h : '<' ∉ l) : tryComment l = none := by
  unfold tryComment
  rw [startsWithL_false_of_missing (c := '<') (by decide) h]
  simp

theorem tryMagic_none {l : List Char} (h : '_' ∉ l) : tryMagic l = none := by
  unfold tryMagic
  rw [startsWithL_false_of_missing (c := '_') (by decide) h]
  rw [startsWithL_false_of_missing (c := '_') (by decide) h]
  rw [startsWithL_false_of_missing (c := '_') (by decide) h]
  simp

theorem tryCaption_none {l : List Char} (h : '|' ∉ l) : tryCaption l = none := by
  unfold tryCaption
  rw [startsWithL_false_of_missing (c := '|') (by decide) h]
  simp

theorem tryRowSep_none {l : List Char} (h : '|' ∉ l) : tryRowSep l = none := by
  unfold tryRowSep
  rw [startsWithL_false_of_missing (c := '|') (by decide) h]
  simp

theorem tryHeaderCell_none {l : List Char} (h : '!' ∉ l) : tryHeaderCell l = none := by
  unfold tryHeaderCell
  split
  · rename_i r
    exact absurd (List.mem_cons_self '!' r) h
  · rfl

theorem tryCell_none {l : List Char} (h : '|' ∉ l) : tryCell l = none := by
  unfold tryCell
  split
  · rename_i r
    exact absurd (List.mem_cons_self '|' r) h
  · rfl

theorem tryHeaderLine_none {l : List Char} (h : '=' ∉ l) : tryHeaderLine l = none := by
  unfold tryHeaderLine
  have he : countWhile (fun c => c == '=') l = 0 := by
    cases l with
    | nil => rfl
    | cons c cs =>
      have hc : c ≠ '=' := fun hcc => h (hcc ▸ List.mem_cons_self c cs)
      exact countWhile_zero_of_head (by simp [hc])
  simp [he]

theorem tryEmph_none {q : Nat} {l : List Char} (hq : 0 < q) (h : apos ∉ l) :
    tryEmph q l = none := by
  unfold tryEmph
  rw [startsWithL_false_of_missing (c := apos)
    (List.mem_replicate.mpr ⟨by omega, rfl⟩) h]
  simp

theorem tryBr_none {l : List Char} (h : '<' ∉ l) : tryBr l = none := by
  unfold tryBr
  rw [ciStartsWithL_false_of_missing (c := '<') (by decide)
    (lowerC_fix_nonletter (by decide) (by decide)) h]
  simp

theorem tryTag_none {l : List Char} (h : '<' ∉ l) : tryTag l = none := by
  unfold tryTag
  split
  · rename_i r
    exact absurd (List.mem_cons_self '<' r) h
  · rfl

theorem tryStars_none {l : List Char} (h : '*' ∉ l) : tryStars l = none := by
  unfold tryStars
  have he : countWhile (fun c => c == '*') l = 0 := by
    cases l with
    | nil => rfl
    | cons c cs =>
      have hc : c ≠ '*' := fun hcc => h (hcc ▸ List.mem_cons_self c cs)
      exact countWhile_zero_of_head (by simp [hc])
  simp [he]

theorem tryHashes_none {l : List Char} (h : '#' ∉ l) : tryHashes l = none := by
  unfold tryHashes
  have he : countWhile (fun c => c == '#') l = 0 := by
    cases l with
    | nil => rfl
    | cons c cs =>
      have hc : c ≠ '#' := fun hcc => h (hcc ▸ List.mem_cons_self c cs)
      exact countWhile_zero_of_head (by simp [hc])
  simp [he]

theorem trySemis_none {l : List Char} (h : ';' ∉ l) : trySemis l = none := by
  unfold trySemis
  have he : countWhile (fun c => c == ';') l = 0 := by
    cases l with
    | nil => rfl
    | cons c cs =>
      have hc : c ≠ ';' := fun hcc => h (hcc ▸ List.mem_cons_self c cs)
      exact countWhile_zero_of_head (by simp [hc])
  simp [he]

theorem tryColons_none {l : List Char} (h : ':' ∉ l) : tryColons l = none := by
  unfold tryColons
  have he : countWhile (fun c => c == ':') l = 0 := by
    cases l with
    | nil => rfl
    | cons c cs =>
      have hc : c ≠ ':' := fun hcc => h (hcc ▸ List.mem_cons_self c cs)
      exact countWhile_zero_of_head (by simp [hc])
  simp [he]

theorem tryHr_none {l : List Char} (h : '-' ∉ l) : tryHr l = none := by
  unfold tryHr
  have he : countWhile (fun c => c == '-') l = 0 := by
    cases l with
    | nil => rfl
    | cons c cs =>
      have hc : c ≠ '-' := fun hcc => h (hcc ▸ List.mem_cons_self c cs)
      exact countWhile_zero_of_head (by simp [hc])
  simp [he]

theorem tryHWs_clean {l : List Char} (ht : '\t' ∉ l)
    (hd : hasSubL ("  ".data) l = false) :
    tryHWs l = none ∨ tryHWs l = some (l.take 1, 1) := by
  cases l with
  | nil => exact Or.inl rfl
  | cons c cs =>
    by_cases hc : c = ' '
    · subst hc
      right
      have hcs : countWhile (fun d => d == ' ' || d == '\t') cs = 0 := by
        cases cs with
        | nil => rfl
        | cons d cs2 =>
          have hd2 : d ≠ ' ' := by
            intro hde
            subst hde
            simp [hasSubL, startsWithL] at hd
          have ht2 : d ≠ '\t' :=
            fun hte => ht (hte ▸ List.mem_cons_of_mem _ (List.mem_cons_self d cs2))
          exact countWhile_zero_of_head (by simp [hd2, ht2])
      unfold tryHWs
      simp [countWhile, hcs]
    · have ht2 : c ≠ '\t' := fun hte => ht (hte ▸ List.mem_cons_self c cs)
      left
      unfold tryHWs
      simp [hc, ht2]

theorem tryNl3_none {l : List Char} (hd : hasSubL ("\n\n\n".data) l = false) :
    tryNl3 l = none := by
  unfold tryNl3
  match l with
  | [] => rfl
  | [a] => simp [countWhile]; split
           all_goals omega
  | [a, b] =>
    simp only [countWhile]
    split
    all_goals split
    all_goals simp
    all_goals omega
  | a :: b :: c :: r =>
    by_cases h3 : a = '\n' ∧ b = '\n' ∧ c = '\n'
    · obtain ⟨rfl, rfl, rfl⟩ := h3
      simp [hasSubL, startsWithL] at hd
    · have : countWhile (fun c => c == '\n') (a :: b :: c :: r) < 3 := by
        by_cases ha : a = '\n'
        · by_cases hb : b = '\n'
          · have hc : ¬(c = '\n') := fun hc => h3 ⟨ha, hb, hc⟩
            simp [countWhile, ha, hb, hc]
          · simp [countWhile, ha, hb]
        · simp [countWhile, ha]
      simp only []
      split
      · omega
      · rfl

theorem jsTrim_eq_self {l : List Char}
    (hh : (l.head?.all fun c => !isWsChar c) = true)
    (hl : (l.getLast?.all fun c => !isWsChar c) = true) : jsTrim l = l := by
  unfold jsTrim
  have h1 : l.dropWhile isWsChar = l := by
    cases l with
    | nil => rfl
    | cons c cs =>
      simp only [List.head?_cons, Option.all_some] at hh
      have hc : isWsChar c = false := by simpa using hh
      simp [List.dropWhile_cons, hc]
  rw [h1]
  have h2 : l.reverse.dropWhile isWsChar = l.reverse := by
    cases hr : l.reverse with
    | nil => rfl
    | cons c cs =>
      have : l.getLast? = some c := by
        rw [← List.head?_reverse, hr, List.head?_cons]
      rw [this, Option.all_some] at hl
      have hc : isWsChar c = false := by simpa using hl
      simp [List.dropWhile_cons, hc]
  rw [h2, List.reverse_reverse]

theorem inert_suffix {c : Char} {cs : List Char} (h : InertText (c :: cs)) :
    InertText cs := by
  obtain ⟨h1, h2, h3⟩ := h
  refine ⟨fun a ha => h1 a (List.mem_cons_of_mem c ha), ?_, ?_⟩
  · cases hs : hasSubL ("  ".data) cs
    · rfl
    · exfalso
      have : hasSubL ("  ".data) (c :: cs) = true := by
        simp [hasSubL, hs]
      rw [this] at h2
      exact Bool.noConfusion h2
  · cases hs : hasSubL ("\n\n\n".data) cs
    · rfl
    · exfalso
      have : hasSubL ("\n\n\n".data) (c :: cs) = true := by
        simp [hasSubL, hs]
      rw [this] at h3
      exact Bool.noConfusion h3

theorem inert_notMem {ch : Char} (hch : ch ∈ markupSet) {l : List Char}
    (h : InertText l) : ch ∉ l :=
  fun hmem => h.1 ch hmem hch

/-- `parseWikitext` is the identity on clean plain text. -/
theorem parseWikitext_clean_id {s : List Char} (h : CleanText s) :
    parseWikitext s = s := by
  obtain ⟨hI, hh, hl⟩ := h
  have idS : ∀ tf : List Char → Hit,
      (∀ l, InertText l → tf l = none ∨ tf l = some (l.take 1, 1)) → runS tf s = s :=
    fun tf htf => scanRepl_eq_self (fun c cs => inert_suffix) htf _ s hI
  have idL : ∀ tf : List Char → Hit,
      (∀ l, InertText l → tf l = none ∨ tf l = some (l.take 1, 1)) → runL tf s = s :=
    fun tf htf => lineScan_eq_self (fun c cs => inert_suffix) htf _ _ s hI
  have e1 : runS tryNoinclude s = s :=
    idS _ (fun l hP => Or.inl (tryNoinclude_none (inert_notMem (by decide) hP)))
  have e2 : runS tryIncludeonly s = s :=
    idS _ (fun l hP => Or.inl (tryIncludeonly_none (inert_notMem (by decide) hP)))
  have e3 : runS tryComment s = s :=
    idS _ (fun l hP => Or.inl (tryComment_none (inert_notMem (by decide) hP)))
  have e4 : runS tryMagic s = s :=
    idS _ (fun l hP => Or.inl (tryMagic_none (inert_notMem (by decide) hP)))
  have e5 : runS tryDisplayTitle s = s :=
    idS _ (fun l hP => Or.inl (tryDisplayTitle_none (inert_notMem (by decide) hP)))
  have e6 : runS tryFileImage s = s :=
    idS _ (fun l hP => Or.inl (tryFileImage_none (inert_notMem (by decide) hP)))
  have e7 : runS tryCategory s = s :=
    idS _ (fun l hP => Or.inl (tryCategory_none (inert_notMem (by decide) hP)))
  have e8 : processTemplates s = s :=
    processTemplates_id
      (idS _ (fun l hP => Or.inl (tryTemplate_none (inert_notMem (by decide) hP))))
  have e9 : processTables s = s := by
    unfold processTables
    rw [idL _ (fun l hP => Or.inl (tryTableStart_none (inert_notMem (by decide) hP)))]
    rw [idL _ (fun l hP => Or.inl (tryTableEnd_none (inert_notMem (by decide) hP)))]
    rw [idL _ (fun l hP => Or.inl (tryCaption_none (inert_notMem (by decide) hP)))]
    rw [idL _ (fun l hP => Or.inl (tryRowSep_none (inert_notMem (by decide) hP)))]
    rw [idL _ (fun l hP => Or.inl (tryHeaderCell_none (inert_notMem (by decide) hP)))]
    rw [idL _ (fun l hP => Or.inl (tryCell_none (inert_notMem (by decide) hP)))]
  have e10 : runS tryPipedLink s = s :=
    idS _ (fun l hP => Or.inl (tryPipedLink_none (inert_notMem (by decide) hP)))
  have e11 : runS tryLink s = s :=
    idS _ (fun l hP => Or.inl (tryLink_none (inert_notMem (by decide) hP)))
  have e12 : runS tryExtLabeled s = s :=
    idS _ (fun l hP => Or.inl (tryExtLabeled_none (inert_notMem (by decide) hP)))
  have e13 : runS tryExtBare s = s :=
    idS _ (fun l hP => Or.inl (tryExtBare_none (inert_notMem (by decide) hP)))
  have e14 : runL tryHeaderLine s = s :=
    idL _ (fun l hP => Or.inl (tryHeaderLine_none (inert_notMem (by decide) hP)))
  have e15 : runS (tryEmph 5) s = s :=
    idS _ (fun l hP => Or.inl (tryEmph_none (by omega) (inert_notMem (by decide) hP)))
  have e16 : runS (tryEmph 3) s = s :=
    idS _ (fun l hP => Or.inl (tryEmph_none (by omega) (inert_notMem (by decide) hP)))
  have e17 : runS (tryEmph 2) s = s :=
    idS _ (fun l hP => Or.inl (tryEmph_none (by omega) (inert_notMem (by decide) hP)))
  have e18 : runS tryBr s = s :=
    idS _ (fun l hP => Or.inl (tryBr_none (inert_notMem (by decide) hP)))
  have e19 : runS tryTag s = s :=
    idS _ (fun l hP => Or.inl (tryTag_none (inert_notMem (by decide) hP)))
  have e20 : runL tryStars s = s :=
    idL _ (fun l hP => Or.inl (tryStars_none (inert_notMem (by decide) hP)))
  have e21 : runL tryHashes s = s :=
    idL _ (fun l hP => Or.inl (tryHashes_none (inert_notMem (by decide) hP)))
  have e22 : runL trySemis s = s :=
    idL _ (fun l hP => Or.inl (trySemis_none (inert_notMem (by decide) hP)))
  have e23 : runL tryColons s = s :=
    idL _ (fun l hP => Or.inl (tryColons_none (inert_notMem (by decide) hP)))
  have e24 : runL tryHr s = s :=
    idL _ (fun l hP => Or.inl (tryHr_none (inert_notMem (by decide) hP)))
  have e25 : decodeHtmlEntities s = s :=
    decodeHtmlEntities_id (inert_notMem (by decide) hI)
  have e26 : runS tryHWs s = s :=
    idS _ (fun l hP => tryHWs_clean (inert_notMem (by decide) hP) hP.2.1)
  have e27 : runS tryNl3 s = s :=
    idS _ (fun l hP => Or.inl (tryNl3_none hP.2.2))
  have e28 : jsTrim s = s := jsTrim_eq_self hh hl
  unfold parseWikitext
  dsimp only
  rw [e1, e2, e3, e4, e5, e6, e7, e8, e9, e10, e11, e12, e13, e14, e15, e16,
    e17, e18, e19, e20, e21, e22, e23, e24, e25, e26, e27, e28]

set_option maxRecDepth 4000 in
/-- Claim C7 counterexample: `normalize` is not idempotent on every input;
double-encoded entities decode one level per run. -/
theorem claim_C7_cex :
    parseWikitext (parseWikitext ("&amp;amp;".data)) ≠
      parseWikitext ("&amp;amp;".data) := by decide

/-- Claim C7 (amended): `normalize` is idempotent on already-clean plain
text — inputs with no markup-trigger characters, collapsed whitespace and
trimmed ends are fixed points, so re-running `normalize` changes nothing;
on arbitrary inputs idempotence can fail. -/
theorem claim_C7 (s : List Char) (h : CleanText s) :
    parseWikitext (parseWikitext s) = parseWikitext s := by
  rw [parseWikitext_clean_id h]
  exact parseWikitext_clean_id h

theorem claim_C7_witness :
    CleanText ("hello world".data) ∧
      parseWikitext (parseWikitext ("hello world".data)) =
        parseWikitext ("hello world".data) :=
  ⟨by decide, claim_C7 ("hello world".data) (by decide)⟩

/-! ## Claim C8 -/

theorem splitOnWsL_ne_nil : ∀ l : List Char, splitOnWsL l ≠ [] := by
  intro l
  induction l with
  | nil => simp [splitOnWsL]
  | cons c cs ih =>
    show List.foldr _ _ (c :: cs) ≠ []
    rw [List.foldr_cons]
    cases hacc : List.foldr _ _ cs with
    | nil => by_cases hc : isWsChar c <;> simp [hc]
    | cons a rest => by_cases hc : isWsChar c <;> simp [hc]

theorem mem_splitOnWsL :
    ∀ (l t : List Char), t ∈ splitOnWsL l → ∀ c ∈ t, c ∈ l ∧ isWsChar c = false := by
  intro l
  induction l with
  | nil =>
    intro t ht c hc
    simp [splitOnWsL] at ht
    subst ht
    simp at hc
  | cons a as ih =>
    intro t ht c hc
    have hstep : splitOnWsL (a :: as) =
        (match splitOnWsL as with
          | [] => if isWsChar a then [[]] else [[a]]
          | b :: rest => if isWsChar a then [] :: b :: rest else (a :: b) :: rest) := by
      show List.foldr _ _ (a :: as) = _
      rw [List.foldr_cons]
      rfl
    rw [hstep] at ht
    cases hacc : splitOnWsL as with
    | nil => exact absurd hacc (splitOnWsL_ne_nil as)
    | cons b rest =>
      rw [hacc] at ht
      by_cases ha : isWsChar a
      · simp only [if_pos ha] at ht
        rcases List.mem_cons.mp ht with h1 | h1
        · subst h1; simp at hc
        · have := ih t (hacc ▸ h1) c hc
          exact ⟨List.mem_cons_of_mem a this.1, this.2⟩
      · simp only [if_neg ha] at ht
        rcases List.mem_cons.mp ht with h1 | h1
        · subst h1
          rcases List.mem_cons.mp hc with h2 | h2
          · exact ⟨h2 ▸ List.mem_cons_self a as, h2 ▸ Bool.eq_false_iff.mpr ha⟩
          · have := ih b (hacc ▸ List.mem_cons_self b rest) c h2
            exact ⟨List.mem_cons_of_mem a this.1, this.2⟩
        · have := ih t (hacc ▸ List.mem_cons_of_mem b h1) c hc
          exact ⟨List.mem_cons_of_mem a this.1, this.2⟩

/-- Claim C8: a query that sanitizes to zero tokens — the empty string, or a
string of characters that are neither word characters, whitespace nor
hyphens — produces the empty result for every store state and every FTS
engine, i.e. without the `MATCH` statement ever being consulted. -/
theorem claim_C8 (q : List Char)
    (h : q = [] ∨ ∀ c ∈ q, isWordChar c = false ∧ isWsChar c = false ∧ c ≠ '-') :
    ∀ (engine : WikiDb → List Char → Nat → List SearchRow) (db : WikiDb) (limit : Nat),
      searchPages engine db q limit = [] := by
  intro engine db limit
  have htok : sanitizeTokens q = [] := by
    unfold sanitizeTokens
    rw [List.filter_eq_nil_iff]
    intro t ht
    simp only [ne_eq, decide_not, Bool.not_eq_true', decide_eq_false_iff_not,
      Decidable.not_not]
    cases t with
    | nil => rfl
    | cons c cs =>
      exfalso
      have hmem := mem_splitOnWsL _ _ ht c (List.mem_cons_self c cs)
      obtain ⟨hin, hws⟩ := hmem
      obtain ⟨d, hd, hdc⟩ := List.mem_map.mp hin
      rcases h with h | h
      · subst h; simp at hd
      · obtain ⟨hw, hs, hh⟩ := h d hd
        rw [hw, hs] at hdc
        simp [hh] at hdc
        rw [← hdc] at hws
        simp [isWsChar] at hws
  unfold searchPages sanitizeFtsQuery
  rw [htok]
  simp

theorem claim_C8_witness :
    searchPages (fun _ _ _ => [⟨"T".data, "s".data, "u".data, (1 : Int)⟩])
      emptyDb ("@#$%^&*".data) 5 = [] :=
  claim_C8 ("@#$%^&*".data) (Or.inr (by decide)) _ emptyDb 5

/-! ## Claim C9 -/

theorem mem_bumpCat_keys {m : List (List Char × Nat)} {k a : List Char}
    (h : a ∈ (bumpCat m k).map Prod.fst) : a ∈ m.map Prod.fst ∨ a = k := by
  induction m with
  | nil =>
    simp [bumpCat] at h
    exact Or.inr h
  | cons e rest ih =>
    obtain ⟨n, c⟩ := e
    rw [bumpCat] at h
    split at h
    · simp only [List.map_cons] at h ⊢
      exact Or.inl h
    · simp only [List.map_cons, List.mem_cons] at h ⊢
      rcases h with h | h
      · exact Or.inl (Or.inl h)
      · rcases ih h with h2 | h2
        · exact Or.inl (Or.inr h2)
        · exact Or.inr h2

theorem bumpCat_nodup {m : List (List Char × Nat)} {k : List Char}
    (h : (m.map Prod.fst).Nodup) : ((bumpCat m k).map Prod.fst).Nodup := by
  induction m with
  | nil => simp [bumpCat]
  | cons e rest ih =>
    obtain ⟨n, c⟩ := e
    rw [bumpCat]
    split
    · exact h
    · rename_i hne
      simp only [List.map_cons, List.nodup_cons] at h ⊢
      refine ⟨fun hmem => ?_, ih h.2⟩
      rcases mem_bumpCat_keys hmem with h2 | h2
      · exact h.1 h2
      · exact hne (by simp [h2])

theorem bumpFold_nodup {cs : List (List Char)} :
    ∀ {m : List (List Char × Nat)}, (m.map Prod.fst).Nodup →
      ((cs.foldl bumpCat m).map Prod.fst).Nodup := by
  induction cs with
  | nil => intro m h; exact h
  | cons c rest ih =>
    intro m h
    rw [List.foldl_cons]
    exact ih (bumpCat_nodup h)

theorem countsOf_nodup (pages : List PageRow) :
    ((countsOf pages).map Prod.fst).Nodup := by
  unfold countsOf
  generalize hinit : ([] : List (List Char × Nat)) = init
  have hbase : (init.map Prod.fst).Nodup := by rw [← hinit]; simp
  clear hinit
  induction pages generalizing init with
  | nil => exact hbase
  | cons r rest ih =>
    rw [List.foldl_cons]
    apply ih
    dsimp only
    split
    · exact bumpFold_nodup hbase
    · exact hbase

/-- Claim C9: `refreshCategories` is idempotent — run twice with no
intervening document changes it yields the identical category result set:
exactly the categories with positive count, free of duplicate rows. -/
theorem claim_C9 (db : WikiDb) :
    getCategories (refreshCategories (refreshCategories db)) =
        getCategories (refreshCategories db) ∧
      ((getCategories (refreshCategories db)).map Prod.fst).Nodup ∧
      ∀ e ∈ getCategories (refreshCategories db), 0 < e.2 := by
  refine ⟨rfl, ?_, ?_⟩
  · have hperm : List.Perm (getCategories (refreshCategories db))
        ((countsOf db.pages).filter (fun e => decide (0 < e.2))) :=
      List.perm_insertionSort _ _
    have hsub : List.Sublist
        ((countsOf db.pages).filter (fun e => decide (0 < e.2)))
        (countsOf db.pages) := List.filter_sublist _
    have hnd : (((countsOf db.pages).filter (fun e => decide (0 < e.2))).map
        Prod.fst).Nodup :=
      (List.Sublist.map Prod.fst hsub).nodup (countsOf_nodup db.pages)
    exact (List.Perm.nodup_iff (List.Perm.map Prod.fst hperm)).mpr hnd
  · intro e he
    have hperm : List.Perm (getCategories (refreshCategories db))
        ((countsOf db.pages).filter (fun e => decide (0 < e.2))) :=
      List.perm_insertionSort _ _
    have hmem := hperm.mem_iff.mp he
    exact of_decide_eq_true (List.mem_filter.mp hmem).2

/-! ## Claim C1 -/

theorem filter_single_of_nodup {l : List PageRow} {r0 : PageRow} {t : List Char}
    (hnd : (l.map PageRow.title).Nodup) (hmem : r0 ∈ l) (ht : r0.title = t) :
    l.filter (fun q => q.title == t) = [r0] := by
  induction l with
  | nil => simp at hmem
  | cons a rest ih =>
    simp only [List.map_cons, List.nodup_cons] at hnd
    rcases List.mem_cons.mp hmem with h1 | h1
    · subst h1
      rw [List.filter_cons_of_pos (by simp [ht])]
      have : rest.filter (fun q => q.title == t) = [] := by
        rw [List.filter_eq_nil_iff]
        intro q hq
        simp only [beq_iff_eq]
        intro hqt
        exact hnd.1 (List.mem_map.mpr ⟨q, hq, hqt.trans ht.symm⟩)
      rw [this]
    · have hat : a.title ≠ t := by
        intro hae
        exact hnd.1 (List.mem_map.mpr ⟨r0, h1, by rw [ht, hae]⟩)
      rw [List.filter_cons_of_neg (by simp [hat])]
      exact ih hnd.2 h1

/-- What a single valid `upsertPage` does to the page table: titles stay
unique, the upserted title holds exactly the new field values, and the count
grows exactly when the title was absent. -/
theorem applyUpsert_spec (db : WikiDb) (p : PageData) (now t c u : List Char)
    (ht : p.title = some t) (hc : p.content = some c) (hu : p.url = some u)
    (hnd : (db.pages.map PageRow.title).Nodup) :
    ((applyUpsert db p now).pages.map PageRow.title).Nodup ∧
      (∃ r : PageRow,
        (applyUpsert db p now).pages.filter (fun q => q.title == t) = [r] ∧
          r.title = t ∧ r.content = c ∧ r.url = u ∧
          r.categories = serializeCats p.categories ∧
          r.last_modified = p.last_modified ∧ r.scraped_at = now) ∧
      getPageCount (applyUpsert db p now) =
        (if (db.pages.find? (fun r => r.title == t)).isSome then getPageCount db
         else getPageCount db + 1) := by
  obtain ⟨pt, pc, pu, pcat, plm⟩ := p
  try dsimp only at ht hc hu
  subst ht
  subst hc
  subst hu
  cases hf : db.pages.find? (fun r => r.title == t) with
  | some r0 =>
    have happ : applyUpsert db ⟨some t, some c, some u, pcat, plm⟩ now =
        { db with
          pages := db.pages.map (fun q =>
            if q.title == t then updRow ⟨some t, some c, some u, pcat, plm⟩ now c u q
            else q)
          fts := db.fts.filter (fun e => !(e.1 == r0.id)) ++ [(r0.id, r0.title, c)] } := by
      simp only [applyUpsert, upsertPageE, hf]
    have hr0mem : r0 ∈ db.pages := List.mem_of_find?_eq_some hf
    have hr0t : r0.title = t := by
      have hp := List.find?_some hf
      simpa using hp
    have hupdtitle : ∀ q : PageRow,
        (updRow ⟨some t, some c, some u, pcat, plm⟩ now c u q).title = q.title :=
      fun q => rfl
    have htitles : (applyUpsert db ⟨some t, some c, some u, pcat, plm⟩ now).pages.map
        PageRow.title = db.pages.map PageRow.title := by
      rw [happ]
      simp only [List.map_map]
      apply List.map_congr_left
      intro q _
      by_cases hq : (q.title == t) = true
      · rw [Function.comp_apply, if_pos hq]
        rfl
      · rw [Function.comp_apply, if_neg hq]
    refine ⟨htitles ▸ hnd, ?_, ?_⟩
    · refine ⟨updRow ⟨some t, some c, some u, pcat, plm⟩ now c u r0,
        ?_, ?_, rfl, rfl, rfl, rfl, rfl⟩
      · rw [happ]
        simp only
        rw [List.filter_map]
        have hcmp : ((fun q : PageRow => q.title == t) ∘ (fun q =>
            if q.title == t then updRow ⟨some t, some c, some u, pcat, plm⟩ now c u q
            else q)) = fun q : PageRow => q.title == t := by
          funext q
          by_cases hq : (q.title == t) = true
          · rw [Function.comp_apply, if_pos hq]
            rfl
          · rw [Function.comp_apply, if_neg hq]
        rw [hcmp, filter_single_of_nodup hnd hr0mem hr0t]
        simp [hr0t]
      · exact hr0t
    · rw [happ]
      simp [getPageCount]
  | none =>
    have happ : applyUpsert db ⟨some t, some c, some u, pcat, plm⟩ now =
        { db with
          pages := db.pages ++ [newRow db ⟨some t, some c, some u, pcat, plm⟩ t c u now]
          fts := db.fts ++ [(db.nextId, t, c)]
          nextId := db.nextId + 1 } := by
      simp only [applyUpsert, upsertPageE, hf]
    have hnotin : ∀ q ∈ db.pages, q.title ≠ t := by
      intro q hq
      have hp := List.find?_eq_none.mp hf q hq
      simpa using hp
    have htnotin : t ∉ db.pages.map PageRow.title := by
      intro hmem
      obtain ⟨q, hq, hqt⟩ := List.mem_map.mp hmem
      exact hnotin q hq hqt
    refine ⟨?_, ?_, ?_⟩
    · rw [happ]
      simp only [List.map_append, List.map_cons, List.map_nil]
      rw [List.nodup_append]
      refine ⟨hnd, List.nodup_singleton _, ?_⟩
      intro a ha hb
      simp only [List.mem_singleton] at hb
      have : a = t := by rw [hb]; rfl
      exact htnotin (this ▸ ha)
    · refine ⟨newRow db ⟨some t, some c, some u, pcat, plm⟩ t c u now,
        ?_, rfl, rfl, rfl, rfl, rfl, rfl⟩
      rw [happ]
      simp only [List.filter_append]
      rw [List.filter_eq_nil_iff.mpr (fun q hq => by simp [hnotin q hq])]
      simp [newRow]
    · rw [happ]
      simp [getPageCount]

/-- Claim C1 counterexample: two upserts whose titles differ only in letter
case create two documents — the second call increases `count()` from 1 to 2
and both rows live under the same case-insensitively normalized title. -/
theorem claim_C1_cex :
    getPageCount (applyUpsert (applyUpsert emptyDb
        ⟨some ("A".data), some ("x".data), some ("u".data), [], none⟩ ("t1".data))
        ⟨some ("a".data), some ("y".data), some ("v".data), [], none⟩ ("t2".data)) = 2 ∧
      getPageCount (applyUpsert emptyDb
        ⟨some ("A".data), some ("x".data), some ("u".data), [], none⟩ ("t1".data)) = 1 ∧
      ((applyUpsert (applyUpsert emptyDb
          ⟨some ("A".data), some ("x".data), some ("u".data), [], none⟩ ("t1".data))
          ⟨some ("a".data), some ("y".data), some ("v".data), [], none⟩ ("t2".data)).pages.filter
        (fun r => lowerL r.title == ("a".data))).length = 2 := by
  refine ⟨?_, ?_, ?_⟩ <;> decide

/-- Claim C1 (amended): `upsertPage` is insert-or-replace keyed by the
*exact* title (`UNIQUE` under SQLite's default BINARY collation).  When the
second call carries the byte-identical title, it replaces the first row:
`count()` is unchanged, and the store holds exactly one row under that
title, carrying the second call's content, url, categories and
last-modified values with a refreshed write timestamp.  Titles differing
only in case create separate documents (see the counterexample). -/
theorem claim_C1 (db : WikiDb) (p1 p2 : PageData) (t n1 n2 : List Char)
    (ht1 : p1.title = some t) (ht2 : p2.title = some t)
    (hv1 : ValidPage p1) (hv2 : ValidPage p2)
    (hnd : (db.pages.map PageRow.title).Nodup) :
    getPageCount (applyUpsert (applyUpsert db p1 n1) p2 n2) =
        getPageCount (applyUpsert db p1 n1) ∧
      ∃ r : PageRow,
        rowsWithTitle (applyUpsert (applyUpsert db p1 n1) p2 n2) t = [r] ∧
          r.title = t ∧ some r.content = p2.content ∧ some r.url = p2.url ∧
          r.categories = serializeCats p2.categories ∧
          r.last_modified = p2.last_modified ∧ r.scraped_at = n2 := by
  obtain ⟨hs1t, hs1c, hs1u⟩ := hv1
  obtain ⟨hs2t, hs2c, hs2u⟩ := hv2
  obtain ⟨c1, hc1⟩ := Option.isSome_iff_exists.mp hs1c
  obtain ⟨u1, hu1⟩ := Option.isSome_iff_exists.mp hs1u
  obtain ⟨c2, hc2⟩ := Option.isSome_iff_exists.mp hs2c
  obtain ⟨u2, hu2⟩ := Option.isSome_iff_exists.mp hs2u
  obtain ⟨hnd1, ⟨r1, hr1f, hr1t, _⟩, _⟩ :=
    applyUpsert_spec db p1 n1 t c1 u1 ht1 hc1 hu1 hnd
  obtain ⟨hnd2, ⟨r2, hr2f, hr2t, hr2c, hr2u, hr2cat, hr2lm, hr2sa⟩, hcount2⟩ :=
    applyUpsert_spec (applyUpsert db p1 n1) p2 n2 t c2 u2 ht2 hc2 hu2 hnd1
  have hfind : ((applyUpsert db p1 n1).pages.find? (fun r => r.title == t)).isSome := by
    rw [List.find?_isSome]
    refine ⟨r1, ?_, by simp [hr1t]⟩
    have : r1 ∈ (applyUpsert db p1 n1).pages.filter (fun q => q.title == t) := by
      rw [hr1f]; exact List.mem_singleton_self r1
    exact (List.mem_filter.mp this).1
  constructor
  · rw [hcount2, if_pos hfind]
  · exact ⟨r2, hr2f, hr2t, by rw [hr2c, hc2], by rw [hr2u, hu2], hr2cat, hr2lm, hr2sa⟩

theorem claim_C1_witness :
    getPageCount (applyUpsert (applyUpsert emptyDb
        ⟨some ("A".data), some ("x".data), some ("u".data), [], none⟩ ("t1".data))
        ⟨some ("A".data), some ("y".data), some ("v".data), [], none⟩ ("t2".data)) =
      getPageCount (applyUpsert emptyDb
        ⟨some ("A".data), some ("x".data), some ("u".data), [], none⟩ ("t1".data)) :=
  (claim_C1 emptyDb
    ⟨some ("A".data), some ("x".data), some ("u".data), [], none⟩
    ⟨some ("A".data), some ("y".data), some ("v".data), [], none⟩
    ("A".data) ("t1".data) ("t2".data) rfl rfl
    (by decide) (by decide) (by decide)).1

/-! ## Claim C4 -/

theorem upsertPageE_ok_iff (db : WikiDb) (p : PageData) (now : List Char) :
    (∃ d, upsertPageE db p now = Except.ok d) ↔ ValidPage p := by
  unfold upsertPageE ValidPage
  cases hpt : p.title with
  | none => simp [hpt]
  | some t =>
    cases hpc : p.content with
    | none => simp [hpt, hpc]
    | some c =>
      cases hpu : p.url with
      | none => simp [hpt, hpc, hpu]
      | some u =>
        simp only [hpt, hpc, hpu, Option.isSome_some, and_self, iff_true]
        cases db.pages.find? (fun r => r.title == t) with
        | some r => exact ⟨_, rfl⟩
        | none => exact ⟨_, rfl⟩

theorem runBatch_ok_eq (now : List Char) :
    ∀ (ps : List PageData) (db d : WikiDb), runBatch db ps now = Except.ok d →
      d = ps.foldl (fun d p => applyUpsert d p now) db := by
  intro ps
  induction ps with
  | nil =>
    intro db d h
    simp only [runBatch, Except.ok.injEq] at h
    simp [h.symm]
  | cons p rest ih =>
    intro db d h
    rw [runBatch] at h
    cases he : upsertPageE db p now with
    | ok d1 =>
      rw [he] at h
      rw [List.foldl_cons]
      have ha : applyUpsert db p now = d1 := by unfold applyUpsert; rw [he]
      rw [ha]
      exact ih d1 d h
    | error e =>
      rw [he] at h
      exact Except.noConfusion h

theorem runBatch_ok_iff (now : List Char) :
    ∀ (ps : List PageData) (db : WikiDb),
      (∃ d, runBatch db ps now = Except.ok d) ↔ ∀ p ∈ ps, ValidPage p := by
  intro ps
  induction ps with
  | nil => intro db; simp [runBatch]
  | cons p rest ih =>
    intro db
    rw [runBatch]
    cases he : upsertPageE db p now with
    | ok d1 =>
      have hv : ValidPage p := (upsertPageE_ok_iff db p now).mp ⟨d1, he⟩
      simp only [List.mem_cons]
      constructor
      · intro hd q hq
        rcases hq with hq | hq
        · exact hq ▸ hv
        · exact ((ih d1).mp hd) q hq
      · intro hall
        exact (ih d1).mpr (fun q hq => hall q (Or.inr hq))
    | error e =>
      have hnv : ¬ ValidPage p := by
        intro hv
        obtain ⟨d, hd⟩ := (upsertPageE_ok_iff db p now).mpr hv
        rw [he] at hd
        exact Except.noConfusion hd
      constructor
      · intro hd
        obtain ⟨d, hd⟩ := hd
        exact Except.noConfusion hd
      · intro hall
        exact absurd (hall p (List.mem_cons_self p rest)) hnv

/-- Claim C4: `upsertPages` is atomic.  On failure the transaction rolls
back: the store (hence `count()`) is exactly the pre-call store and the
error is surfaced to the caller; on success the batch equals the sequential
application of every single-page upsert; and the call succeeds exactly when
every element of the batch is valid. -/
theorem claim_C4 (db : WikiDb) (ps : List PageData) (now : List Char) :
    ((upsertPages db ps now).2.isSome →
        (upsertPages db ps now).1 = db ∧
          getPageCount (upsertPages db ps now).1 = getPageCount db) ∧
      ((upsertPages db ps now).2 = none →
        (upsertPages db ps now).1 = ps.foldl (fun d p => applyUpsert d p now) db) ∧
      ((upsertPages db ps now).2 = none ↔ ∀ p ∈ ps, ValidPage p) := by
  unfold upsertPages
  cases hr : runBatch db ps now with
  | ok d =>
    refine ⟨fun h => by simp at h, fun _ => runBatch_ok_eq now ps db d hr, ?_⟩
    simp only [true_iff]
    exact (runBatch_ok_iff now ps db).mp ⟨d, hr⟩
  | error e =>
    refine ⟨fun _ => ⟨rfl, rfl⟩, fun h => by simp at h, ?_⟩
    constructor
    · intro h
      exact Option.noConfusion h
    · intro hall
      exfalso
      obtain ⟨d, hd⟩ := (runBatch_ok_iff now ps db).mpr hall
      rw [hr] at hd
      exact Except.noConfusion hd

theorem claim_C4_witness :
    (upsertPages emptyDb
        [⟨some ("A".data), some ("x".data), some ("u".data), [], none⟩,
         ⟨none, some ("y".data), some ("v".data), [], none⟩] ("t".data)).1 = emptyDb ∧
      getPageCount (upsertPages emptyDb
        [⟨some ("A".data), some ("x".data), some ("u".data), [], none⟩,
         ⟨none, some ("y".data), some ("v".data), [], none⟩] ("t".data)).1 =
        getPageCount emptyDb :=
  (claim_C4 emptyDb
    [⟨some ("A".data), some ("x".data), some ("u".data), [], none⟩,
     ⟨none, some ("y".data), some ("v".data), [], none⟩] ("t".data)).1 (by decide)

/-! ## Claim C5 -/

theorem applyUpsert_invalid {db : WikiDb} {p : PageData} {now : List Char}
    (hv : ¬ ValidPage p) : applyUpsert db p now = db := by
  unfold applyUpsert
  cases he : upsertPageE db p now with
  | ok d => exact absurd ((upsertPageE_ok_iff db p now).mp ⟨d, he⟩) hv
  | error e => rfl

/-- A single upsert preserves the structural invariants, in particular the
exact synchronization of the text index with the page table. -/
theorem DbInv_applyUpsert {db : WikiDb} (p : PageData) (now : List Char)
    (h : DbInv db) : DbInv (applyUpsert db p now) := by
  by_cases hv : ValidPage p
  case neg => rw [applyUpsert_invalid hv]; exact h
  obtain ⟨pt, pc, pu, pcat, plm⟩ := p
  obtain ⟨hvt, hvc, hvu⟩ := hv
  obtain ⟨t, ht⟩ := Option.isSome_iff_exists.mp hvt
  obtain ⟨c, hc⟩ := Option.isSome_iff_exists.mp hvc
  obtain ⟨u, hu⟩ := Option.isSome_iff_exists.mp hvu
  try dsimp only at ht hc hu
  subst ht
  subst hc
  subst hu
  obtain ⟨hid, htit, hbound, hsync⟩ := h
  cases hf : db.pages.find? (fun r => r.title == t) with
  | none =>
    have happ : applyUpsert db ⟨some t, some c, some u, pcat, plm⟩ now =
        { db with
          pages := db.pages ++ [newRow db ⟨some t, some c, some u, pcat, plm⟩ t c u now]
          fts := db.fts ++ [(db.nextId, t, c)]
          nextId := db.nextId + 1 } := by
      simp only [applyUpsert, upsertPageE, hf]
    have hnotin : ∀ q ∈ db.pages, q.title ≠ t := by
      intro q hq
      have hp := List.find?_eq_none.mp hf q hq
      simpa using hp
    rw [happ]
    refine ⟨?_, ?_, ?_, ?_⟩
    · simp only [List.map_append, List.map_cons, List.map_nil]
      rw [List.nodup_append]
      refine ⟨hid, List.nodup_singleton _, ?_⟩
      intro a ha hb
      simp only [List.mem_singleton] at hb
      obtain ⟨q, hq, hqa⟩ := List.mem_map.mp ha
      have hlt := hbound q hq
      rw [hqa] at hlt
      rw [hb] at hlt
      simp [newRow] at hlt
    · simp only [List.map_append, List.map_cons, List.map_nil]
      rw [List.nodup_append]
      refine ⟨htit, List.nodup_singleton _, ?_⟩
      intro a ha hb
      simp only [List.mem_singleton] at hb
      obtain ⟨q, hq, hqa⟩ := List.mem_map.mp ha
      exact hnotin q hq (by rw [hqa, hb]; rfl)
    · intro r hr
      simp only at hr
      show r.id < db.nextId + 1
      rcases List.mem_append.mp hr with h1 | h1
      · have := hbound r h1
        omega
      · simp only [List.mem_singleton] at h1
        rw [h1]
        simp [newRow]
    · unfold FtsSynced
      simp only [List.map_append, List.map_cons, List.map_nil]
      exact hsync.append (by rfl)
  | some r0 =>
    have happ : applyUpsert db ⟨some t, some c, some u, pcat, plm⟩ now =
        { db with
          pages := db.pages.map (fun q =>
            if q.title == t then updRow ⟨some t, some c, some u, pcat, plm⟩ now c u q
            else q)
          fts := db.fts.filter (fun e => !(e.1 == r0.id)) ++ [(r0.id, r0.title, c)] } := by
      simp only [applyUpsert, upsertPageE, hf]
    have hr0mem : r0 ∈ db.pages := List.mem_of_find?_eq_some hf
    have hr0t : r0.title = t := by
      have hp := List.find?_some hf
      simpa using hp
    obtain ⟨l1, l2, hdec⟩ := List.append_of_mem hr0mem
    have htit' : ((l1.map PageRow.title).Nodup ∧
        (r0.title :: l2.map PageRow.title).Nodup ∧
        (l1.map PageRow.title).Disjoint (r0.title :: l2.map PageRow.title)) := by
      rw [hdec, List.map_append, List.map_cons, List.nodup_append] at htit
      exact htit
    have hl1t : ∀ q ∈ l1, q.title ≠ t := by
      intro q hq hqt
      exact htit'.2.2 (List.mem_map.mpr ⟨q, hq, rfl⟩)
        (by rw [hqt, ← hr0t]; exact List.mem_cons_self _ _)
    have hl2t : ∀ q ∈ l2, q.title ≠ t := by
      intro q hq hqt
      have := (List.nodup_cons.mp htit'.2.1).1
      exact this (List.mem_map.mpr ⟨q, hq, by rw [hqt, hr0t]⟩)
    have hid' : ((l1.map PageRow.id).Nodup ∧
        (r0.id :: l2.map PageRow.id).Nodup ∧
        (l1.map PageRow.id).Disjoint (r0.id :: l2.map PageRow.id)) := by
      rw [hdec, List.map_append, List.map_cons, List.nodup_append] at hid
      exact hid
    have hl1i : ∀ q ∈ l1, q.id ≠ r0.id := by
      intro q hq hqi
      exact hid'.2.2 (List.mem_map.mpr ⟨q, hq, rfl⟩)
        (by rw [← hqi]; exact List.mem_cons_self _ _)
    have hl2i : ∀ q ∈ l2, q.id ≠ r0.id := by
      intro q hq hqi
      have := (List.nodup_cons.mp hid'.2.1).1
      exact this (List.mem_map.mpr ⟨q, hq, hqi⟩)
    have hmapid : ∀ l : List PageRow, (∀ q ∈ l, q.title ≠ t) →
        l.map (fun q =>
          if q.title == t then updRow ⟨some t, some c, some u, pcat, plm⟩ now c u q
          else q) = l := by
      intro l hl
      induction l with
      | nil => rfl
      | cons a rest ih =>
        rw [List.map_cons, if_neg (by simp [hl a (List.mem_cons_self a rest)]),
          ih (fun q hq => hl q (List.mem_cons_of_mem a hq))]
    have hupd : db.pages.map (fun q =>
        if q.title == t then updRow ⟨some t, some c, some u, pcat, plm⟩ now c u q
        else q) =
        l1 ++ updRow ⟨some t, some c, some u, pcat, plm⟩ now c u r0 :: l2 := by
      rw [hdec, List.map_append, List.map_cons]
      rw [hmapid l1 hl1t, hmapid l2 hl2t, if_pos (by simp [hr0t])]
    rw [happ]
    refine ⟨?_, ?_, ?_, ?_⟩
    · simp only [hupd, List.map_append, List.map_cons]
      rw [List.nodup_append]
      rw [hdec, List.map_append, List.map_cons, List.nodup_append] at hid
      exact ⟨hid.1, hid.2.1, hid.2.2⟩
    · simp only [hupd, List.map_append, List.map_cons]
      rw [List.nodup_append]
      rw [hdec, List.map_append, List.map_cons, List.nodup_append] at htit
      have hut : (updRow ⟨some t, some c, some u, pcat, plm⟩ now c u r0).title =
          r0.title := rfl
      rw [hut]
      exact ⟨htit.1, htit.2.1, htit.2.2⟩
    · intro r hr
      simp only [hupd] at hr
      have hrb : ∀ q ∈ db.pages, q.id < db.nextId := hbound
      rcases List.mem_append.mp hr with h1 | h1
      · exact hrb r (hdec ▸ List.mem_append.mpr (Or.inl h1))
      · rcases List.mem_cons.mp h1 with h2 | h2
        · have := hrb r0 hr0mem
          rw [h2]
          exact this
        · exact hrb r (hdec ▸ List.mem_append.mpr
            (Or.inr (List.mem_cons_of_mem _ h2)))
    · unfold FtsSynced
      simp only [hupd, List.map_append, List.map_cons]
      have hprojA : ∀ e ∈ l1.map projFts, (!(e.1 == r0.id)) = true := by
        intro e he
        obtain ⟨q, hq, hqe⟩ := List.mem_map.mp he
        simp only [← hqe, projFts]
        simp [hl1i q hq]
      have hprojB : ∀ e ∈ l2.map projFts, (!(e.1 == r0.id)) = true := by
        intro e he
        obtain ⟨q, hq, hqe⟩ := List.mem_map.mp he
        simp only [← hqe, projFts]
        simp [hl2i q hq]
      have hpermf : List.Perm
          (db.fts.filter (fun e => !(e.1 == r0.id)))
          (l1.map projFts ++ l2.map projFts) := by
        have h1 : List.Perm
            (db.fts.filter (fun e => !(e.1 == r0.id)))
            ((db.pages.map projFts).filter (fun e => !(e.1 == r0.id))) :=
          hsync.filter _
        rw [hdec, List.map_append, List.map_cons, List.filter_append] at h1
        rw [List.filter_eq_self.mpr hprojA] at h1
        rw [List.filter_cons_of_neg (by simp [projFts])] at h1
        rw [List.filter_eq_self.mpr hprojB] at h1
        exact h1
      have hx : projFts (updRow ⟨some t, some c, some u, pcat, plm⟩ now c u r0) =
          (r0.id, r0.title, c) := rfl
      rw [hx]
      exact ((hpermf.append_right _).trans
        (List.perm_append_singleton _ _)).trans List.perm_middle.symm

theorem DbInv_foldl (now : List Char) :
    ∀ (ps : List PageData) (db : WikiDb), DbInv db →
      DbInv (ps.foldl (fun d p => applyUpsert d p now) db) := by
  intro ps
  induction ps with
  | nil => intro db h; exact h
  | cons p rest ih =>
    intro db h
    rw [List.foldl_cons]
    exact ih (applyUpsert db p now) (DbInv_applyUpsert p now h)

theorem DbInv_upsertPages {db : WikiDb} (ps : List PageData) (now : List Char)
    (h : DbInv db) : DbInv (upsertPages db ps now).1 := by
  unfold upsertPages
  cases hr : runBatch db ps now with
  | error e => exact h
  | ok d =>
    simp only
    rw [runBatch_ok_eq now ps db d hr]
    exact DbInv_foldl now ps db h

theorem DbInv_applyOp {db : WikiDb} (op : DbOp) (h : DbInv db) :
    DbInv (applyOp db op) := by
  cases op with
  | single p now => exact DbInv_applyUpsert p now h
  | batch ps now => exact DbInv_upsertPages ps now h
  | refresh => exact h

/-- Claim C5: starting from any store satisfying the structural invariants
(in particular the empty store), after every sequence of `upsertPage` /
`upsertPages` / `refreshCategories` operations the FTS index holds exactly
one entry per page row, carrying that row's current title and content — no
stale and no missing entries. -/
theorem claim_C5 (db : WikiDb) (ops : List DbOp) (h : DbInv db) :
    FtsSynced (applyOps db ops) ∧ DbInv (applyOps db ops) := by
  have hgen : ∀ (os : List DbOp) (d : WikiDb), DbInv d → DbInv (applyOps d os) := by
    intro os
    induction os with
    | nil => intro d hd; exact hd
    | cons op rest ih =>
      intro d hd
      show DbInv (List.foldl applyOp d (op :: rest))
      rw [List.foldl_cons]
      exact ih (applyOp d op) (DbInv_applyOp op hd)
  have hinv := hgen ops db h
  exact ⟨hinv.2.2.2, hinv⟩

theorem claim_C5_witness :
    FtsSynced (applyOps emptyDb
      [DbOp.single ⟨some ("A".data), some ("x".data), some ("u".data), [], none⟩
        ("t1".data),
       DbOp.single ⟨some ("A".data), some ("y".data), some ("v".data), [], none⟩
        ("t2".data)]) :=
  (claim_C5 emptyDb
    [DbOp.single ⟨some ("A".data), some ("x".data), some ("u".data), [], none⟩
      ("t1".data),
     DbOp.single ⟨some ("A".data), some ("y".data), some ("v".data), [], none⟩
      ("t2".data)] (by decide)).1

/-! ## Claims C3 and C10: occurrence machinery for `LIKE` patterns -/

theorem startsWithL_iff_append {pat l : List Char} :
    startsWithL l pat = true ↔ ∃ b, l = pat ++ b := by
  induction pat generalizing l with
  | nil => simp [startsWithL]
  | cons p ps ih =>
    cases l with
    | nil =>
      simp only [startsWithL]
      constructor
      · intro h
        exact Bool.noConfusion h
      · intro ⟨b, hb⟩
        exact List.noConfusion hb
    | cons c cs =>
      simp only [startsWithL, Bool.and_eq_true, beq_iff_eq, ih]
      constructor
      · intro ⟨h1, b, hb⟩
        exact ⟨b, by rw [h1, hb]; rfl⟩
      · intro ⟨b, hb⟩
        injection hb with h1 h2
        exact ⟨h1, b, h2⟩

theorem hasSubL_iff_occursIn {pat l : List Char} :
    hasSubL pat l = true ↔ occursIn pat l := by
  induction l with
  | nil =>
    simp only [hasSubL]
    rw [startsWithL_iff_append]
    constructor
    · intro ⟨b, hb⟩
      exact ⟨[], b, hb⟩
    · intro ⟨a, b, hb⟩
      have ha : a = [] := by
        cases a with
        | nil => rfl
        | cons x xs => exact List.noConfusion hb
      subst ha
      exact ⟨b, hb⟩
  | cons c cs ih =>
    simp only [hasSubL, Bool.or_eq_true, ih]
    rw [startsWithL_iff_append]
    constructor
    · intro h
      rcases h with ⟨b, hb⟩ | ⟨a, b, hb⟩
      · exact ⟨[], b, hb⟩
      · exact ⟨c :: a, b, by rw [hb]; rfl⟩
    · intro ⟨a, b, hb⟩
      cases a with
      | nil => exact Or.inl ⟨b, hb⟩
      | cons x xs =>
        injection hb with h1 h2
        exact Or.inr ⟨xs, b, h2⟩

theorem occursIn_length {pat l : List Char} (h : occursIn pat l) :
    pat.length ≤ l.length := by
  obtain ⟨a, b, hb⟩ := h
  rw [hb]
  simp only [List.length_append]
  omega

theorem occursIn_cons_of_ne {pat' : List Char} {c : Char} {l : List Char}
    (hc : c ≠ '"') (h : occursIn ('"' :: pat') (c :: l)) :
    occursIn ('"' :: pat') l := by
  obtain ⟨a, b, hb⟩ := h
  cases a with
  | nil =>
    injection hb with h1 _
    exact absurd h1 hc
  | cons x xs =>
    injection hb with _ h2
    exact ⟨xs, b, h2⟩

theorem occursIn_append_of_qf {pat' : List Char} {u l : List Char}
    (hu : '"' ∉ u) (h : occursIn ('"' :: pat') (u ++ l)) :
    occursIn ('"' :: pat') l := by
  induction u with
  | nil => exact h
  | cons c cs ih =>
    have hc : c ≠ '"' := fun he => hu (he ▸ List.mem_cons_self c cs)
    exact ih (fun hm => hu (List.mem_cons_of_mem c hm)) (occursIn_cons_of_ne hc h)

theorem occursIn_prepend {pat u l : List Char} (h : occursIn pat l) :
    occursIn pat (u ++ l) := by
  obtain ⟨a, b, hb⟩ := h
  exact ⟨u ++ a, b, by rw [hb]; simp [List.append_assoc]⟩

/-- Two quote-free strings followed by a quote align exactly. -/
theorem qf_align {X e b d : List Char} (hX : '"' ∉ X) (he : '"' ∉ e)
    (h : X ++ '"' :: b = e ++ '"' :: d) : X = e := by
  induction X generalizing e with
  | nil =>
    cases e with
    | nil => rfl
    | cons y e2 =>
      injection h with h1 _
      exact absurd (h1 ▸ List.mem_cons_self y e2) he
  | cons x X2 ih =>
    cases e with
    | nil =>
      injection h with h1 _
      exact absurd (h1 ▸ List.mem_cons_self x X2) hX
    | cons y e2 =>
      injection h with h1 h2
      rw [h1]
      rw [ih (fun hm => hX (List.mem_cons_of_mem x hm))
        (fun hm => he (List.mem_cons_of_mem y hm)) h2]

theorem serTail_shape (e : List Char) (rest : List (List Char)) :
    ∃ D, serTail (e :: rest) = '"' :: e ++ '"' :: D ∧
      ((rest = [] ∧ D = [']']) ∨ (rest ≠ [] ∧ D = ',' :: serTail rest)) := by
  cases rest with
  | nil =>
    refine ⟨[']'], ?_, Or.inl ⟨rfl, rfl⟩⟩
    simp [serTail, joinSep]
  | cons f r2 =>
    refine ⟨',' :: serTail (f :: r2), ?_, Or.inr ⟨by simp, rfl⟩⟩
    simp [serTail, joinSep, List.append_assoc]

/-- Soundness of the quoted `LIKE` pattern against the serialized array: an
occurrence of `"X"` in the tail of the serialization of quote-free elements
pins `X` to one of the elements (for `X` quote-free and not the bare
separator `","`). -/
theorem occursIn_serTail {X : List Char} (hXq : '"' ∉ X) (hXc : X ≠ [',']) :
    ∀ es : List (List Char), (∀ e ∈ es, '"' ∉ e) →
      occursIn ('"' :: X ++ ['"']) (serTail es) → ∃ e ∈ es, e = X := by
  intro es
  induction es with
  | nil =>
    intro _ hocc
    have hlen := occursIn_length hocc
    simp [serTail, joinSep] at hlen
  | cons e rest ih =>
    intro hq hocc
    have heq : '"' ∉ e := hq e (List.mem_cons_self _ _)
    obtain ⟨D, hD, hDprop⟩ := serTail_shape e rest
    rw [hD] at hocc
    obtain ⟨a, b, hb⟩ := hocc
    cases a with
    | nil =>
      simp only [List.nil_append, List.cons_append, List.singleton_append,
        List.append_assoc] at hb
      injection hb with _ hb2
      exact ⟨e, List.mem_cons_self _ _, (qf_align hXq heq hb2.symm).symm⟩
    | cons a0 a' =>
      simp only [List.cons_append, List.singleton_append, List.append_assoc] at hb
      injection hb with _ hb2
      have hocc2 : occursIn ('"' :: X ++ ['"']) (e ++ '"' :: D) := ⟨a', b, by
        rw [hb2]; simp [List.append_assoc]⟩
      have hocc3 : occursIn ('"' :: (X ++ ['"'])) ('"' :: D) :=
        occursIn_append_of_qf heq (by simpa [List.append_assoc] using hocc2)
      obtain ⟨a2, b2, hb4⟩ := hocc3
      cases a2 with
      | nil =>
        simp only [List.nil_append, List.cons_append, List.singleton_append,
          List.append_assoc] at hb4
        injection hb4 with _ hb5
        rcases hDprop with ⟨_, hD1⟩ | ⟨hne, hD2⟩
        · rw [hD1] at hb5
          cases X with
          | nil =>
            simp only [List.nil_append] at hb5
            injection hb5 with h1 _
            exact absurd h1 (by decide)
          | cons x X2 =>
            simp only [List.cons_append] at hb5
            injection hb5 with _ h2
            have hlen : (X2 ++ '"' :: b2).length = 0 := by rw [← h2]; rfl
            simp at hlen
        · rw [hD2] at hb5
          cases X with
          | nil =>
            simp only [List.nil_append] at hb5
            injection hb5 with h1 _
            exact absurd h1 (by decide)
          | cons x X2 =>
            simp only [List.cons_append] at hb5
            injection hb5 with h1 h2
            cases X2 with
            | nil =>
              exact absurd (by rw [h1]) hXc
            | cons y X3 =>
              exfalso
              cases hrest : rest with
              | nil => exact hne hrest
              | cons f r2 =>
                obtain ⟨D2, hD2x, _⟩ := serTail_shape f r2
                rw [hrest, hD2x] at h2
                simp only [List.cons_append] at h2
                injection h2 with h3 _
                exact hXq (by rw [h3]; exact List.mem_cons_of_mem x (List.mem_cons_self _ _))
      | cons a20 a2' =>
        simp only [List.cons_append, List.singleton_append, List.append_assoc] at hb4
        injection hb4 with _ hb5
        have hoccD : occursIn ('"' :: X ++ ['"']) D := ⟨a2', b2, by
          rw [hb5]; simp [List.append_assoc]⟩
        rcases hDprop with ⟨_, hD1⟩ | ⟨hne, hD2⟩
        · rw [hD1] at hoccD
          have hlen := occursIn_length hoccD
          simp at hlen
        · rw [hD2] at hoccD
          have hoccD2 : occursIn ('"' :: (X ++ ['"'])) (',' :: serTail rest) := by
            simpa [List.append_assoc] using hoccD
          have hoccT := occursIn_cons_of_ne (by decide) hoccD2
          obtain ⟨e2, he2, hX⟩ := ih (fun x hx => hq x (List.mem_cons_of_mem e hx))
            (by simpa [List.append_assoc] using hoccT)
          exact ⟨e2, List.mem_cons_of_mem e he2, hX⟩

/-- Completeness: every element equal to `X` yields an occurrence of the
quoted pattern in the serialized tail. -/
theorem serTail_occursIn {X : List Char} :
    ∀ es : List (List Char), (∃ e ∈ es, e = X) →
      occursIn ('"' :: X ++ ['"']) (serTail es) := by
  intro es
  induction es with
  | nil =>
    intro ⟨e, he, _⟩
    simp at he
  | cons e rest ih =>
    intro ⟨e', he', hX⟩
    obtain ⟨D, hD, hDprop⟩ := serTail_shape e rest
    rcases List.mem_cons.mp he' with h1 | h1
    · refine ⟨[], D, ?_⟩
      rw [hD, ← hX, h1]
      simp [List.append_assoc]
    · have hne : rest ≠ [] := fun h0 => by
        rw [h0] at h1
        simp at h1
      rcases hDprop with ⟨h0, _⟩ | ⟨_, hD2⟩
      · exact absurd h0 hne
      · have hoccT := ih ⟨e', h1, hX⟩
        have : serTail (e :: rest) = ('"' :: e ++ ['"', ',']) ++ serTail rest := by
          rw [hD, hD2]
          simp [List.append_assoc]
        rw [this]
        exact occursIn_prepend hoccT

theorem lexLeB_total : ∀ a b : List Char, lexLeB a b = true ∨ lexLeB b a = true := by
  intro a
  induction a with
  | nil => intro b; exact Or.inl rfl
  | cons x xs ih =>
    intro b
    cases b with
    | nil => exact Or.inr rfl
    | cons y ys =>
      by_cases h1 : x.toNat < y.toNat
      · exact Or.inl (by simp [lexLeB, h1])
      · by_cases h2 : y.toNat < x.toNat
        · exact Or.inr (by simp [lexLeB, h2])
        · rcases ih ys with h | h
          · exact Or.inl (by simp [lexLeB, h1, h2, h])
          · exact Or.inr (by simp [lexLeB, h1, h2, h])

theorem lexLeB_trans : ∀ a b c : List Char,
    lexLeB a b = true → lexLeB b c = true → lexLeB a c = true := by
  intro a
  induction a with
  | nil => intro b c _ _; rfl
  | cons x xs ih =>
    intro b c hab hbc
    cases b with
    | nil => simp [lexLeB] at hab
    | cons y ys =>
      cases c with
      | nil => simp [lexLeB] at hbc
      | cons z zs =>
        rw [lexLeB] at hab hbc ⊢
        split at hab
        · rename_i h1
          split at hbc
          · rename_i h2
            rw [if_pos (by omega)]
          · split at hbc
            · exact Bool.noConfusion hbc
            · rename_i h2 h3
              have hyz : y.toNat = z.toNat := by omega
              rw [if_pos (by omega)]
        · split at hab
          · exact Bool.noConfusion hab
          · rename_i h1 h2
            have hxy : x.toNat = y.toNat := by omega
            split at hbc
            · rename_i h3
              rw [if_pos (by omega)]
            · split at hbc
              · exact Bool.noConfusion hbc
              · rename_i h3 h4
                rw [if_neg (by omega), if_neg (by omega)]
                exact ih ys zs hab hbc

/-! ## Serialization, lower-casing and the category LIKE pattern -/

theorem quote_notMem_lowerL {l : List Char} (h : '"' ∉ l) : '"' ∉ lowerL l := by
  intro hm
  obtain ⟨c, hc, he⟩ := List.mem_map.mp hm
  exact h (lowerC_fix (by decide) he ▸ hc)

theorem lowerL_eq_comma {l : List Char} (h : lowerL l = [',']) : l = [','] := by
  cases l with
  | nil => exact absurd h (by decide)
  | cons c cs =>
    cases cs with
    | nil =>
      simp only [lowerL, List.map_cons, List.map_nil] at h
      injection h with h1 _
      rw [lowerC_fix (by decide) h1]
    | cons d ds =>
      have hlen := congrArg List.length h
      simp only [lowerL, List.length_map, List.length_cons, List.length_nil] at hlen
      omega

/-- On a plain name the JSON escaper is the identity. -/
theorem esc_plain : ∀ {e : List Char}, PlainName e → (List.map escJsonChar e).flatten = e := by
  intro e
  induction e with
  | nil => intro _; rfl
  | cons c cs ih =>
    intro h
    obtain ⟨h1, h2, h3⟩ := h c (List.mem_cons_self c cs)
    have hc : escJsonChar c = [c] := by
      unfold escJsonChar
      rw [if_neg (by simp only [beq_iff_eq]; exact h1),
        if_neg (by simp only [beq_iff_eq]; exact h2),
        if_neg (by simp only [beq_iff_eq]; intro he; rw [he] at h3; exact absurd h3 (by decide)),
        if_neg (by simp only [beq_iff_eq]; intro he; rw [he] at h3; exact absurd h3 (by decide)),
        if_neg (by simp only [beq_iff_eq]; intro he; rw [he] at h3; exact absurd h3 (by decide)),
        if_neg (by simp only [beq_iff_eq]; intro he; rw [he] at h3; exact absurd h3 (by decide)),
        if_neg (by simp only [beq_iff_eq]; intro he; rw [he] at h3; exact absurd h3 (by decide)),
        if_neg (by omega)]
    rw [List.map_cons, List.flatten_cons, hc,
      ih (fun x hx => h x (List.mem_cons_of_mem c hx)), List.singleton_append]

theorem lowerL_append (a b : List Char) : lowerL (a ++ b) = lowerL a ++ lowerL b := by
  simp [lowerL]

theorem lowerL_quote_wrap (q : List Char) :
    lowerL ('"' :: q ++ ['"']) = '"' :: lowerL q ++ ['"'] := by
  simp only [lowerL, List.map_append, List.map_cons, List.map_nil]
  rw [show lowerC '"' = '"' from by decide]

theorem lower_joinSep : ∀ cs : List (List Char), (∀ s ∈ cs, PlainName s) →
    lowerL (joinSep [','] (List.map quoteJson cs)) =
      joinSep [','] (List.map (fun e => '"' :: lowerL e ++ ['"']) cs) := by
  intro cs
  induction cs with
  | nil => intro _; rfl
  | cons e rest ih =>
    intro h
    have hq : lowerL (quoteJson e) = '"' :: lowerL e ++ ['"'] := by
      unfold quoteJson
      rw [esc_plain (h e (List.mem_cons_self e rest))]
      exact lowerL_quote_wrap e
    cases rest with
    | nil =>
      simp only [List.map_cons, List.map_nil, joinSep]
      exact hq
    | cons f r2 =>
      have hr := ih (fun s hs => h s (List.mem_cons_of_mem e hs))
      simp only [List.map_cons] at hr ⊢
      show lowerL (quoteJson e ++ [','] ++
        joinSep [','] (quoteJson f :: List.map quoteJson r2)) = _
      rw [lowerL_append, lowerL_append, hq, hr]
      rfl

/-- Lower-casing the serialized category array of plain names. -/
theorem lower_serialize {cs : List (List Char)} (h : ∀ s ∈ cs, PlainName s) :
    lowerL (serializeCats cs) = '[' :: serTail (List.map lowerL cs) := by
  unfold serializeCats serTail
  show lowerL (('[' :: joinSep [','] (List.map quoteJson cs)) ++ [']']) = _
  rw [show (('[' :: joinSep [','] (List.map quoteJson cs)) ++ [']'] : List Char) =
    ['['] ++ (joinSep [','] (List.map quoteJson cs) ++ [']']) from by simp,
    lowerL_append, lowerL_append, lower_joinSep cs h,
    show lowerL ['['] = ['['] from by decide,
    show lowerL [']'] = [']'] from by decide,
    List.map_map]
  rfl

/-- Row-level behaviour of the category LIKE filter on a serialized list of
plain names: the quoted pattern matches exactly when some element equals the
query up to ASCII case. -/
theorem likeMatch_iff {cs : List (List Char)} (hcs : ∀ s ∈ cs, PlainName s)
    {q : List Char} (hq : '"' ∉ q) (hqc : q ≠ [',']) :
    likeContains (serializeCats cs) ('"' :: q ++ ['"']) = true ↔
      ∃ e ∈ cs, lowerL e = lowerL q := by
  unfold likeContains
  rw [hasSubL_iff_occursIn, lowerL_quote_wrap, lower_serialize hcs]
  constructor
  · intro hocc
    have h1 := occursIn_cons_of_ne (by decide) hocc
    obtain ⟨e, he, hXe⟩ := occursIn_serTail (quote_notMem_lowerL hq)
      (fun h0 => hqc (lowerL_eq_comma h0)) (List.map lowerL cs)
      (fun e he0 => by
        obtain ⟨s, hs, rfl⟩ := List.mem_map.mp he0
        exact quote_notMem_lowerL (fun hm => ((hcs s hs) '"' hm).1 rfl)) h1
    obtain ⟨s, hs, rfl⟩ := List.mem_map.mp he
    exact ⟨s, hs, hXe⟩
  · intro ⟨e, he, hle⟩
    have h2 := serTail_occursIn (List.map lowerL cs)
      ⟨lowerL e, List.mem_map_of_mem lowerL he, hle⟩
    exact @occursIn_prepend _ (['[']) _ h2

theorem stripSpecial_no_quote (s : List Char) : '"' ∉ stripSpecial s := by
  intro hm
  exact absurd (List.of_mem_filter hm) (by decide)

theorem stripSpecial_eq_self {s : List Char}
    (h : ∀ c ∈ s, (c == '"' || c == '%' || c == '_' || c == '\\') = false) :
    stripSpecial s = s :=
  List.filter_eq_self.mpr (fun c hc => by rw [h c hc]; rfl)

/-- C3 counterexample: `LIKE` matching is ASCII-case-insensitive, so the page
stored under category `Tools` is returned for the query `tools`, although
`tools` is not an element of its category list — membership is not decided by
exact element presence. -/
theorem claim_C3_cex :
    getPagesByCategory
      ⟨[⟨1, ("Page").data, ("c").data, ("u").data,
        serializeCats [("Tools").data], none, ("sa").data⟩], [], [], 2⟩
      (("tools").data) = [("Page").data] ∧
      (("tools").data) ∉ [("Tools").data] := by
  exact ⟨by decide, by decide⟩

/-- Claim C3 (amended): for a store whose `categories` columns are
serializations of plain names, and a query free of the stripped characters
`"`/`%`/`_`/`\` and distinct from the bare separator `","`,
`getPagesByCategory` returns the titles of exactly the rows whose category
list contains an element equal to the query *up to ASCII case* — element-wise
matching, but case-insensitive rather than exact (see the counterexample) —
sorted in SQLite BINARY (code-point) order. -/
theorem claim_C3 (db : WikiDb) (category : List Char)
    (hdb : StoredPlain db)
    (hcat : ∀ c ∈ category, (c == '"' || c == '%' || c == '_' || c == '\\') = false)
    (hne : category ≠ [',']) :
    List.Sorted titleLe (getPagesByCategory db category) ∧
      ∀ t, t ∈ getPagesByCategory db category ↔
        ∃ r ∈ db.pages, r.title = t ∧
          ∃ cs, r.categories = serializeCats cs ∧ (∀ s ∈ cs, PlainName s) ∧
            ∃ e ∈ cs, lowerL e = lowerL category := by
  haveI hTot : IsTotal (List Char) titleLe := ⟨lexLeB_total⟩
  haveI hTr : IsTrans (List Char) titleLe := ⟨fun a b c => lexLeB_trans a b c⟩
  have hq : '"' ∉ category := fun hm => absurd (hcat '"' hm) (by decide)
  have hgp : getPagesByCategory db category =
      ((db.pages.filter (fun r =>
          likeContains r.categories ('"' :: stripSpecial category ++ ['"']))).map
        (fun r => r.title)).insertionSort titleLe := rfl
  rw [stripSpecial_eq_self hcat] at hgp
  constructor
  · rw [hgp]
    exact List.sorted_insertionSort titleLe _
  · intro t
    rw [hgp, (List.perm_insertionSort titleLe _).mem_iff, List.mem_map]
    constructor
    · intro ⟨r, hr, ht⟩
      obtain ⟨hrp, hlike⟩ := List.mem_filter.mp hr
      obtain ⟨cs, hser, hplain⟩ := hdb r hrp
      rw [hser] at hlike
      exact ⟨r, hrp, ht, cs, hser, hplain, (likeMatch_iff hplain hq hne).mp hlike⟩
    · intro ⟨r, hrp, ht, cs, hser, hplain, hmatch⟩
      refine ⟨r, List.mem_filter.mpr ⟨hrp, ?_⟩, ht⟩
      rw [hser]
      exact (likeMatch_iff hplain hq hne).mpr hmatch

theorem claim_C3_witness :
    List.Sorted titleLe (getPagesByCategory
      ⟨[⟨1, ("P").data, ("c").data, ("u").data,
        serializeCats [("Tools").data], none, ("sa").data⟩], [], [], 2⟩
      (("Tools").data)) :=
  (claim_C3 _ _
    (fun r hr => by
      rw [List.mem_singleton] at hr
      subst hr
      exact ⟨[("Tools").data], rfl, by decide⟩)
    (by decide) (by decide)).1

/-- C10 counterexample: the claimed consequence "a category name containing a
removed character can never exactly match its own stored name" fails.  The
name consisting of one double quote is stored JSON-escaped inside `["\\""]`;
the query strips to the empty pattern, wrapped as `""`, and the escaped
serialization does contain `""`, so the page is returned for exactly its own
stored name. -/
theorem claim_C10_cex :
    getPagesByCategory
      ⟨[⟨1, ("P").data, ("c").data, ("u").data, serializeCats [['"']], none,
        ("sa").data⟩], [], [], 2⟩ ['"'] = [("P").data] := by
  decide

/-- Claim C10 (amended): `getPagesByCategory` strips `"`, `%`, `_`, `\\` from
its argument before matching, so (1) any two category arguments with the same
stripped form are matched identically, and (2) on a store of serialized plain
names, a query containing `%` or `_` is looked up as if those characters were
absent: every page it returns matches via a category element that differs
from the queried name itself, so the query never exactly matches its own
stored name.  (For names containing `"` the original "never" claim fails —
see the counterexample.) -/
theorem claim_C10 (db : WikiDb) (category : List Char)
    (hdb : StoredPlain db)
    (hsp : ∃ c ∈ category, c = '%' ∨ c = '_')
    (hsc : stripSpecial category ≠ [',']) :
    (∀ c2, stripSpecial c2 = stripSpecial category →
      getPagesByCategory db c2 = getPagesByCategory db category) ∧
    ∀ t, t ∈ getPagesByCategory db category →
      ∃ r ∈ db.pages, r.title = t ∧
        ∃ cs, r.categories = serializeCats cs ∧
          ∃ e ∈ cs, lowerL e = lowerL (stripSpecial category) ∧ e ≠ category := by
  have hgp : ∀ c : List Char, getPagesByCategory db c =
      ((db.pages.filter (fun r =>
          likeContains r.categories ('"' :: stripSpecial c ++ ['"']))).map
        (fun r => r.title)).insertionSort titleLe := fun c => rfl
  constructor
  · intro c2 h2
    rw [hgp c2, hgp category, h2]
  · intro t ht
    rw [hgp category, (List.perm_insertionSort titleLe _).mem_iff, List.mem_map] at ht
    obtain ⟨r, hr, hrt⟩ := ht
    obtain ⟨hrp, hlike⟩ := List.mem_filter.mp hr
    obtain ⟨cs, hser, hplainr⟩ := hdb r hrp
    rw [hser] at hlike
    obtain ⟨e, he, hle⟩ :=
      (likeMatch_iff hplainr (stripSpecial_no_quote category) hsc).mp hlike
    refine ⟨r, hrp, hrt, cs, hser, e, he, hle, ?_⟩
    intro heq
    have hlt : (stripSpecial category).length < category.length := by
      obtain ⟨c, hc, hco⟩ := hsp
      unfold stripSpecial
      refine List.length_filter_lt_length_iff_exists.mpr ⟨c, hc, ?_⟩
      rcases hco with rfl | rfl <;> decide
    have hcontra := congrArg List.length hle
    rw [heq] at hcontra
    simp only [lowerL, List.length_map] at hcontra
    omega

theorem claim_C10_witness :
    getPagesByCategory
      ⟨[⟨1, ("P").data, ("c").data, ("u").data, serializeCats [("ab").data], none,
        ("sa").data⟩], [], [], 2⟩ (("ab").data) =
    getPagesByCategory
      ⟨[⟨1, ("P").data, ("c").data, ("u").data, serializeCats [("ab").data], none,
        ("sa").data⟩], [], [], 2⟩ (("a_b").data) :=
  (claim_C10 _ (("a_b").data)
    (fun r hr => by
      rw [List.mem_singleton] at hr
      subst hr
      exact ⟨[("ab").data], rfl, by decide⟩)
    ⟨'_', by decide, Or.inr rfl⟩ (by decide)).1 (("ab").data) (by decide)

end Sasquatch
